import Mathlib

/-!
Shallow embedding of the primitive runtime interpreter of this repository
(`src/runtime/primitives.py`, plus the Result primitive `unwrap` of
`src/runtime/io_primitives.py`), with theorems settling the behavioural
claims about the expression evaluator and the combinator library.

Modelling conventions, used consistently below:

* Python runtime values are the inductive type `Val`.  A Python `float` is
  modelled as an exact rational: every floating computation reached by the
  verified claims stays on integers far below `2^53`, where IEEE double
  arithmetic is exact, so the rational model agrees with the source.
  The classes `Ok`/`Err` of `io_adapter.py` and the `Err` dataclass of
  `primitives.py` are collapsed into the single Result concept of the
  value model (`Val.ok` / `Val.err`); `Some` wraps a value, `None_` is the
  falsy singleton `NONE`.
* Python strings are `List Char`; `str.isdigit`, `str.isidentifier` are
  modelled on ASCII, which is all the evaluator's own tokens use.
* Python dicts built by the evaluator are string-keyed association lists
  with no duplicate keys (`eval_object` inserts with overwrite); binding
  contexts use the same representation with a last-write-wins insert.
* Raised exceptions (`TypeError`, `ValueError`, `IndexError`,
  `ZeroDivisionError`, and the `Exception` raised by `unwrap`) are the
  `Except RErr` error channel.  Behaviour that no verified claim reaches
  and that has no finite faithful model here (e.g. `repr` of a non-dyadic
  float, `%`-formatting of strings, sequence repetition, exponent float
  literals) is mapped to the explicit error `RErr.unmodelled` or noted at
  its definition, never silently approximated.
* The recursion of `eval_expr` over substrings is made structural with a
  fuel parameter; `RErr.outOfFuel` marks exhaustion.  The theorems hold
  for every sufficient fuel.
-/

namespace PrimRt

/-- Python runtime values exchanged by the evaluator and the combinators
(`primitives.py`: `None_`, `Some`; `io_adapter.py`: `Ok`, `Err`; plus the
Python scalars, lists, tuples and string-keyed dicts the evaluator
produces).  The vestigial `primitives.Err` class is constructed nowhere
in the repository and is not modelled; `err` is `io_adapter.Err`. -/
inductive Val where
  | none_ : Val
  | bool : Bool → Val
  | int : Int → Val
  | float : Rat → Val
  | str : List Char → Val
  | list : List Val → Val
  | tuple : List Val → Val
  | dict : List (List Char × Val) → Val
  | some : Val → Val
  | ok : Val → Val
  | err : Val → Val

/-- The raised-exception channel of the embedding (see the module comment). -/
inductive RErr where
  | typeError : RErr
  | valueError : RErr
  | indexError : RErr
  | zeroDivision : RErr
  | unwrapFailed : Val → RErr
  | outOfFuel : RErr
  | unmodelled : RErr

/-! ### Python string helpers (`List Char`) -/

/-- The whitespace characters stripped by Python `str.strip()`. -/
def pySpace (c : Char) : Bool :=
  c = ' ' ∨ c = '\t' ∨ c = '\n' ∨ c = '\r' ∨ c = '\x0b' ∨ c = '\x0c'

/-- Python `s.strip()`. -/
def pyStrip (s : List Char) : List Char :=
  ((s.dropWhile pySpace).reverse.dropWhile pySpace).reverse

/-- Python `s.startswith(t)`. -/
def pyStartsWith : List Char → List Char → Bool
  | _, [] => true
  | [], _ :: _ => false
  | c :: cs, d :: ds => c = d && pyStartsWith cs ds

/-- Python `s.endswith(t)`. -/
def pyEndsWith (s t : List Char) : Bool :=
  pyStartsWith s.reverse t.reverse

/-- Python `t in s` (contiguous substring; `t = ""` is always contained). -/
def pyContains : List Char → List Char → Bool
  | s, t =>
    if pyStartsWith s t then true
    else
      match s with
      | [] => false
      | _ :: rest => pyContains rest t

/-- Python `s.index(c)` for a single character (callers below only use it
when the character is present; Python raises `ValueError` otherwise). -/
def idxOfC (c : Char) (s : List Char) : Nat :=
  s.findIdx (fun x => x = c)

/-- Python `s.rindex(c)` for a single character, assuming presence. -/
def rIdxOfC (c : Char) (s : List Char) : Nat :=
  s.length - 1 - s.reverse.findIdx (fun x => x = c)

/-- Python `s.split(sep)` for a one-character separator: every occurrence
splits, and the empty string yields one empty chunk. -/
def splitAllOn (sep : Char) : List Char → List (List Char)
  | [] => [[]]
  | c :: rest =>
    let r := splitAllOn sep rest
    if c = sep then [] :: r
    else
      match r with
      | h :: t => (c :: h) :: t
      | [] => [[c]]

/-- Python `s.split(sep, 1)` for a multi-character separator: split at the
first occurrence, `none` when the separator does not occur. -/
def splitFirstOn (s sep : List Char) : Option (List Char × List Char) :=
  splitFirstOnGo s sep []
where
  splitFirstOnGo : List Char → List Char → List Char → Option (List Char × List Char)
    | rem, sep, acc =>
      if pyStartsWith rem sep then Option.some (acc.reverse, rem.drop sep.length)
      else
        match rem with
        | [] => Option.none
        | c :: rest => splitFirstOnGo rest sep (c :: acc)

/-- ASCII decimal digit (Python `str.isdigit` on the characters the
evaluator's own tokens can produce). -/
def isDigitC (c : Char) : Bool :=
  c ∈ ['0', '1', '2', '3', '4', '5', '6', '7', '8', '9']

/-- ASCII model of Python `str.isidentifier()`. -/
def pyIsIdentifier (s : List Char) : Bool :=
  match s with
  | [] => false
  | c :: rest =>
    (c.isAlpha || c = '_') && rest.all (fun d => d.isAlpha || isDigitC d || d = '_')

/-! ### Literal parsing (`eval_literal`, lines 106-127) -/

def digitVal (c : Char) : Nat := c.toNat - 48

/-- Decimal value of a digit string. -/
def digitsVal (ds : List Char) : Nat :=
  ds.foldl (fun a c => 10 * a + digitVal c) 0

/-- Nonempty all-digit strings parse to their decimal value. -/
def parseDigits (ds : List Char) : Option Nat :=
  if ds ≠ [] ∧ ds.all isDigitC then Option.some (digitsVal ds) else Option.none

/-- Python `int(s)` on a stripped string: optional sign and decimal digits.
Underscore separators and non-ASCII digits, which no reachable string
contains, are not modelled (they would fall through to the string case of
`eval_literal`). -/
def pyIntParse (s : List Char) : Option Int :=
  let t := pyStrip s
  match t with
  | '-' :: rest => (parseDigits rest).map (fun n => -(n : Int))
  | '+' :: rest => (parseDigits rest).map (fun n => (n : Int))
  | _ => (parseDigits t).map (fun n => (n : Int))

/-- Python `float(s)` restricted to the forms `[sign] digits`,
`[sign] digits . digits`, `[sign] . digits` and `[sign] digits .`
(exponents, `inf` and `nan` are not modelled; no reachable literal uses
them). -/
def pyFloatCore (t : List Char) : Option Rat :=
  match splitAllOn '.' t with
  | [a] => (parseDigits a).map (fun n => mkRat (Int.ofNat n) 1)
  | [a, b] =>
    if (a ≠ [] ∨ b ≠ []) ∧ a.all isDigitC ∧ b.all isDigitC then
      Option.some (mkRat
        (Int.ofNat (digitsVal a * 10 ^ b.length + digitsVal b)) (10 ^ b.length))
    else Option.none
  | _ => Option.none

def pyFloatParse (s : List Char) : Option Rat :=
  let t := pyStrip s
  match t with
  | '-' :: rest => (pyFloatCore rest).map (fun q => -q)
  | '+' :: rest => pyFloatCore rest
  | _ => pyFloatCore t

def trueTok : List Char := "true".data
def falseTok : List Char := "false".data
def nullTok : List Char := "null".data
def dqC : Char := '\x22'
def sqC : Char := '\x27'

/-- `eval_literal` (primitives.py lines 106-127): keyword literals, quoted
strings, then `int`, then `float`, then the permissive fall-through to the
string itself. -/
def eval_literal (s0 : List Char) : Val :=
  let s := pyStrip s0
  if s = trueTok then .bool true
  else if s = falseTok then .bool false
  else if s = nullTok then .none_
  else if pyStartsWith s [dqC] && pyEndsWith s [dqC] then
    .str ((s.drop 1).take (s.length - 2))
  else if pyStartsWith s [sqC] && pyEndsWith s [sqC] then
    .str ((s.drop 1).take (s.length - 2))
  else
    match pyIntParse s with
    | Option.some i => .int i
    | Option.none =>
      match pyFloatParse s with
      | Option.some q => .float q
      | Option.none => .str s

/-! ### Truthiness, equality, ordering, arithmetic -/

/-- Python `bool(v)` on the value model (`None_.__bool__` is `False`;
dataclass instances are truthy). -/
def pyTruthy : Val → Bool
  | .none_ => false
  | .bool b => b
  | .int i => i != 0
  | .float q => q != 0
  | .str s => !s.isEmpty
  | .list l => !l.isEmpty
  | .tuple l => !l.isEmpty
  | .dict d => !d.isEmpty
  | .some _ => true
  | .ok _ => true
  | .err _ => true

/-! Rational arithmetic via `Rat.divInt` on numerators and denominators.
Mathlib's field operations on `Rat` are not kernel-reducible (their
unfolding blocks `rfl`/`decide` on concrete runs of the evaluator); these
helpers compute the same values reducibly.  The `*_eq`/`*_iff` lemmas
below tie each helper to the Mathlib operation for symbolic reasoning. -/

def ratOfInt (i : Int) : Rat := mkRat i 1

def ratAdd (x y : Rat) : Rat :=
  Rat.divInt (x.num * (y.den : Int) + y.num * (x.den : Int)) ((x.den : Int) * (y.den : Int))

def ratSub (x y : Rat) : Rat :=
  Rat.divInt (x.num * (y.den : Int) - y.num * (x.den : Int)) ((x.den : Int) * (y.den : Int))

def ratMul (x y : Rat) : Rat :=
  Rat.divInt (x.num * y.num) ((x.den : Int) * (y.den : Int))

def ratDiv (x y : Rat) : Rat :=
  Rat.divInt (x.num * (y.den : Int)) ((x.den : Int) * y.num)

def ratLt (x y : Rat) : Bool := x.num * (y.den : Int) < y.num * (x.den : Int)

def ratLe (x y : Rat) : Bool := x.num * (y.den : Int) ≤ y.num * (x.den : Int)

/-- `⌊x / y⌋` for nonzero `y`, via `Int.fdiv` (floor division). -/
def ratFloorDiv (x y : Rat) : Int :=
  Int.fdiv (x.num * (y.den : Int)) ((x.den : Int) * y.num)

theorem ratOfInt_eq (i : Int) : ratOfInt i = (i : Rat) := by
  rw [ratOfInt, Rat.mkRat_one]

theorem ratAdd_eq (x y : Rat) : ratAdd x y = x + y := by
  rw [ratAdd, Rat.divInt_eq_div]
  conv_rhs => rw [← Rat.num_divInt_den x, ← Rat.num_divInt_den y]
  rw [Rat.divInt_eq_div, Rat.divInt_eq_div,
    div_add_div _ _ (by exact_mod_cast x.den_nz) (by exact_mod_cast y.den_nz)]
  push_cast
  ring_nf

theorem ratSub_eq (x y : Rat) : ratSub x y = x - y := by
  rw [ratSub, Rat.divInt_eq_div]
  conv_rhs => rw [← Rat.num_divInt_den x, ← Rat.num_divInt_den y]
  rw [Rat.divInt_eq_div, Rat.divInt_eq_div,
    div_sub_div _ _ (by exact_mod_cast x.den_nz) (by exact_mod_cast y.den_nz)]
  push_cast
  ring_nf

theorem ratMul_eq (x y : Rat) : ratMul x y = x * y := by
  rw [ratMul, Rat.divInt_eq_div]
  conv_rhs => rw [← Rat.num_divInt_den x, ← Rat.num_divInt_den y]
  rw [Rat.divInt_eq_div, Rat.divInt_eq_div, div_mul_div_comm]
  push_cast
  ring_nf

theorem ratDiv_eq (x y : Rat) : ratDiv x y = x / y := by
  rw [ratDiv, Rat.divInt_eq_div]
  conv_rhs => rw [← Rat.num_divInt_den x, ← Rat.num_divInt_den y]
  rw [Rat.divInt_eq_div, Rat.divInt_eq_div, div_div_div_eq]
  push_cast
  ring_nf

theorem ratLe_iff (x y : Rat) : ratLe x y = true ↔ x ≤ y := by
  rw [ratLe, decide_eq_true_iff]
  conv_rhs => rw [← Rat.num_divInt_den x, ← Rat.num_divInt_den y]
  rw [Rat.divInt_le_divInt (by exact_mod_cast x.pos) (by exact_mod_cast y.pos)]

theorem ratLt_iff (x y : Rat) : ratLt x y = true ↔ x < y := by
  rw [ratLt, decide_eq_true_iff]
  constructor
  · intro h
    rcases lt_or_le x y with h2 | h2
    · exact h2
    · exfalso
      have h3 := (ratLe_iff y x).mpr h2
      rw [ratLe, decide_eq_true_iff] at h3
      omega
  · intro h
    have h2 := (ratLe_iff x y).mpr h.le
    rw [ratLe, decide_eq_true_iff] at h2
    rcases eq_or_lt_of_le h2 with h3 | h3
    · exfalso
      have h4 : x = y := by
        rw [← Rat.num_divInt_den x, ← Rat.num_divInt_den y,
          Rat.divInt_eq_iff (by exact_mod_cast x.den_nz) (by exact_mod_cast y.den_nz)]
        exact h3
      exact absurd h4 h.ne
    · exact h3

/-- Numeric view: Python treats `bool` as an integer in arithmetic and
comparisons. -/
def numQ : Val → Option Rat
  | .bool b => Option.some (ratOfInt (if b then 1 else 0))
  | .int i => Option.some (ratOfInt i)
  | .float q => Option.some q
  | _ => Option.none

/-- Whether a value is int-like (`bool`/`int`): arithmetic on two int-like
operands stays an `int` in Python. -/
def intLikeZ : Val → Option Int
  | .bool b => Option.some (if b then 1 else 0)
  | .int i => Option.some i
  | _ => Option.none

/-- Binding contexts and the evaluator's dicts: string-keyed association
lists; insertion overwrites, so keys never repeat. -/
abbrev Ctx := List (List Char × Val)

/-- First component of an association-list lookup (used for binding
contexts and for string-keyed dicts alike). -/
def lookupCtx (k : List Char) : List (List Char × Val) → Option Val
  | [] => Option.none
  | (k', v) :: rest => if k = k' then Option.some v else lookupCtx k rest

/-- Python dict assignment `d[k] = v`: overwrite in place or append. -/
def dictInsert (d : List (List Char × Val)) (k : List Char) (v : Val) :
    List (List Char × Val) :=
  if (lookupCtx k d).isSome then d.map (fun kv => if kv.1 = k then (k, v) else kv)
  else d ++ [(k, v)]

mutual

/-- Fueled worker for Python `==` (see `pyEq`): every recursive call both
consumes one unit of fuel and strictly decreases the combined `sizeOf` of
its value arguments, so the instantiation in `pyEq` can never exhaust the
fuel; the `0` case is unreachable.  The fuel only serves to make the
mutual recursion structural (hence kernel-reducible). -/
def pyEqF : Nat → Val → Val → Bool
  | 0, _, _ => false
  | m + 1, a, b =>
    match a, b with
    | .str x, .str y => x = y
    | .none_, .none_ => true
    | .list x, .list y => pyEqListF m x y
    | .tuple x, .tuple y => pyEqListF m x y
    | .dict x, .dict y => pyEqDictF m x y && pyEqDictF m y x
    | .some x, .some y => pyEqF m x y
    | .ok x, .ok y => pyEqF m x y
    | .err x, .err y => pyEqF m x y
    | a, b =>
      match numQ a, numQ b with
      | Option.some x, Option.some y => x = y
      | _, _ => false

def pyEqListF : Nat → List Val → List Val → Bool
  | 0, _, _ => false
  | _ + 1, [], [] => true
  | m + 1, x :: xs, y :: ys => pyEqF m x y && pyEqListF m xs ys
  | _ + 1, _, _ => false

def pyEqDictF : Nat → List (List Char × Val) → List (List Char × Val) → Bool
  | 0, _, _ => false
  | _ + 1, [], _ => true
  | m + 1, (k, v) :: rest, b => pyFindEqF m k v b && pyEqDictF m rest b

def pyFindEqF : Nat → List Char → Val → List (List Char × Val) → Bool
  | 0, _, _, _ => false
  | _ + 1, _, _, [] => false
  | m + 1, k, v, (k', w) :: rest =>
    if k = k' then pyEqF m v w else pyFindEqF m k v rest

end

mutual

/-- Structural size of a value, used only to instantiate the fuel of
`pyEqF` with a bound that every call chain respects. -/
def valSize : Val → Nat
  | .none_ | .bool _ | .int _ | .float _ | .str _ => 1
  | .list l => 1 + valSizeL l
  | .tuple l => 1 + valSizeL l
  | .dict d => 1 + valSizeD d
  | .some v => 1 + valSize v
  | .ok v => 1 + valSize v
  | .err v => 1 + valSize v

def valSizeL : List Val → Nat
  | [] => 1
  | v :: vs => 1 + valSize v + valSizeL vs

def valSizeD : List (List Char × Val) → Nat
  | [] => 1
  | kv :: rest => 1 + valSize kv.2 + valSizeD rest

end

/-- Python `==` on the value model: numeric kinds compare by value
(`True == 1 == 1.0`), strings/lists/tuples structurally, dicts by mutual
key containment with `==` on values, `None_` only to itself; values of
unrelated classes are unequal. -/
def pyEq (a b : Val) : Bool :=
  pyEqF (valSize a + valSize b) a b

/-- Lexicographic `<` on Python strings (by code point). -/
def strLtB : List Char → List Char → Bool
  | [], [] => false
  | [], _ :: _ => true
  | _ :: _, [] => false
  | a :: as_, b :: bs => if a = b then strLtB as_ bs else a < b

/-- Python `<` (`operator.lt`): numbers by value, strings lexicographic;
sequence comparison is unreachable in the verified claims and left
unmodelled; mixed unrelated types raise `TypeError`. -/
def pyLtB : Val → Val → Except RErr Bool
  | .str a, .str b => pure (strLtB a b)
  | .list _, .list _ => .error .unmodelled
  | .tuple _, .tuple _ => .error .unmodelled
  | a, b =>
    match numQ a, numQ b with
    | Option.some x, Option.some y => pure (ratLt x y)
    | _, _ => .error .typeError

/-- Python `<=`. -/
def pyLeB : Val → Val → Except RErr Bool
  | .str a, .str b => pure (strLtB a b || a = b)
  | .list _, .list _ => .error .unmodelled
  | .tuple _, .tuple _ => .error .unmodelled
  | a, b =>
    match numQ a, numQ b with
    | Option.some x, Option.some y => pure (ratLe x y)
    | _, _ => .error .typeError

/-- The comparison operators of lines 177-179, in source order. -/
inductive CmpOp where
  | eq | ne | ge | le | gt | lt
deriving DecidableEq

def pyCmpOp : CmpOp → Val → Val → Except RErr Val
  | .eq, a, b => pure (.bool (pyEq a b))
  | .ne, a, b => pure (.bool (!pyEq a b))
  | .ge, a, b => do pure (.bool (← pyLeB b a))
  | .le, a, b => do pure (.bool (← pyLeB a b))
  | .gt, a, b => do pure (.bool (← pyLtB b a))
  | .lt, a, b => do pure (.bool (← pyLtB a b))

/-- The arithmetic operators of lines 202-204, in source order. -/
inductive ArithOp where
  | add | sub | mul | div | mod
deriving DecidableEq

/-- Python `%` on rationals (floor convention, as for Python ints and the
positive floats the claims reach): `a - b * ⌊a / b⌋`. -/
def ratPyMod (a b : Rat) : Rat := ratSub a (ratMul b (ratOfInt (ratFloorDiv a b)))

/-- Python binary arithmetic (`operator.add/sub/mul/truediv/mod`) on the
value model.  Both operands numeric: `int` results stay `int` except for
true division; `+` also concatenates strings, lists and tuples.  String
formatting by `%` and sequence repetition by `*` are unreachable in the
verified claims and left unmodelled; remaining combinations raise
`TypeError` as in Python. -/
def pyArith : ArithOp → Val → Val → Except RErr Val
  | .add, .str a, .str b => pure (.str (a ++ b))
  | .add, .list a, .list b => pure (.list (a ++ b))
  | .add, .tuple a, .tuple b => pure (.tuple (a ++ b))
  | .mod, .str _, _ => .error .unmodelled
  | .mul, .str _, _ => .error .unmodelled
  | .mul, _, .str _ => .error .unmodelled
  | .mul, .list _, _ => .error .unmodelled
  | .mul, _, .list _ => .error .unmodelled
  | .mul, .tuple _, _ => .error .unmodelled
  | .mul, _, .tuple _ => .error .unmodelled
  | op, a, b =>
    match numQ a, numQ b with
    | Option.some x, Option.some y =>
      match op with
      | .div => if y.num = 0 then .error .zeroDivision else pure (.float (ratDiv x y))
      | .add =>
        match intLikeZ a, intLikeZ b with
        | Option.some i, Option.some j => pure (.int (i + j))
        | _, _ => pure (.float (ratAdd x y))
      | .sub =>
        match intLikeZ a, intLikeZ b with
        | Option.some i, Option.some j => pure (.int (i - j))
        | _, _ => pure (.float (ratSub x y))
      | .mul =>
        match intLikeZ a, intLikeZ b with
        | Option.some i, Option.some j => pure (.int (i * j))
        | _, _ => pure (.float (ratMul x y))
      | .mod =>
        if y.num = 0 then .error .zeroDivision
        else
          match intLikeZ a, intLikeZ b with
          | Option.some i, Option.some j => pure (.int (Int.fmod i j))
          | _, _ => pure (.float (ratPyMod x y))
    | _, _ => .error .typeError

/-! ### Depth-tracked operator search (`find_at_depth_0`, lines 235-252) -/

def lbC : Char := '\x7b'
def rbC : Char := '\x7d'

/-- The bracket characters the depth tracker counts (`"([{"` / `")]}"`). -/
def openBs : List Char := ['(', '[', lbC]
def closeBs : List Char := [')', ']', rbC]

/-- Worker for `find_at_depth_0`: scans the suffix `s` starting at absolute
index `i` with the current bracket `depth` and the best match `found`
(`-1` when none).  The loop stops as soon as the remaining window is
shorter than the target, exactly like the Python bound
`i < len(expr) - len(target) + 1`. -/
def findAtD0Go (target : List Char) (rightmost : Bool) :
    List Char → Nat → Int → Int → Int
  | [], _, _, found => found
  | c :: rest, i, depth, found =>
    if (c :: rest).length < target.length then found
    else if c ∈ openBs then findAtD0Go target rightmost rest (i + 1) (depth + 1) found
    else if c ∈ closeBs then findAtD0Go target rightmost rest (i + 1) (depth - 1) found
    else if depth == 0 && pyStartsWith (c :: rest) target then
      if rightmost then findAtD0Go target rightmost rest (i + 1) depth (i : Int)
      else (i : Int)
    else findAtD0Go target rightmost rest (i + 1) depth found

/-- `find_at_depth_0` (lines 235-252): index of the first (or, with
`rightmost`, the last) occurrence of `target` at bracket depth 0, `-1` if
none. -/
def find_at_depth_0 (expr target : List Char) (rightmost : Bool) : Int :=
  findAtD0Go target rightmost expr 0 0 (-1)

/-- The depth-0 `?` scan of the ternary dispatch (lines 163-172): index of
the first `?` at bracket depth 0, `-1` when there is none. -/
def ternaryQPosGo : List Char → Nat → Int → Int
  | [], _, _ => -1
  | c :: rest, i, depth =>
    if c ∈ openBs then ternaryQPosGo rest (i + 1) (depth + 1)
    else if c ∈ closeBs then ternaryQPosGo rest (i + 1) (depth - 1)
    else if c == '?' && depth == 0 then (i : Int)
    else ternaryQPosGo rest (i + 1) depth

def ternaryQPos (expr : List Char) : Int := ternaryQPosGo expr 0 0

/-! ### Dispatcher split helpers (mirroring the `for`-loops of `eval_expr`) -/

def cmpOps : List (List Char × CmpOp) :=
  [(['=', '='], .eq), (['!', '='], .ne), (['>', '='], .ge),
   (['<', '='], .le), (['>'], .gt), (['<'], .lt)]

/-- The comparison loop of lines 177-187: first operator that is contained
in `expr` and occurs at depth 0 wins; an operator contained only inside
brackets falls through to the next one. -/
def findCmpSplit : List (List Char × CmpOp) → List Char →
    Option (List Char × List Char × CmpOp)
  | [], _ => Option.none
  | (op, f) :: rest, expr =>
    if pyContains expr op then
      let idx := find_at_depth_0 expr op false
      if 0 ≤ idx then
        Option.some (expr.take idx.toNat, expr.drop (idx.toNat + op.length), f)
      else findCmpSplit rest expr
    else findCmpSplit rest expr

/-- The logical-operator split of lines 190-199 (`" && "`, `" || "`). -/
def findOpSplit (expr op : List Char) : Option (List Char × List Char) :=
  if pyContains expr op then
    let idx := find_at_depth_0 expr op false
    if 0 ≤ idx then
      Option.some (expr.take idx.toNat, expr.drop (idx.toNat + op.length))
    else Option.none
  else Option.none

def arithOps : List (List Char × ArithOp) :=
  [(['+'], .add), (['-'], .sub), (['*'], .mul),
   (['/'], .div), (['%'], .mod)]

/-- The arithmetic loop of lines 202-217: the operator must occur spaced
(`" op "`) at depth 0, the *rightmost* such occurrence is the split point,
and both stripped sides must be nonempty; otherwise the loop falls through
to the next operator. -/
def findArithSplit : List (List Char × ArithOp) → List Char →
    Option (List Char × List Char × ArithOp)
  | [], _ => Option.none
  | (op, f) :: rest, expr =>
    let spaced := ' ' :: (op ++ [' '])
    if pyContains expr spaced then
      let idx := find_at_depth_0 expr spaced true
      if 0 ≤ idx then
        let left_part := pyStrip (expr.take idx.toNat)
        let right_part := pyStrip (expr.drop (idx.toNat + spaced.length))
        if !left_part.isEmpty && !right_part.isEmpty then
          Option.some (left_part, right_part, f)
        else findArithSplit rest expr
      else findArithSplit rest expr
    else findArithSplit rest expr

/-! ### Literal containers, ternary, property access, index access -/

/-- The top-level comma split shared by `eval_object` and `eval_array`
(lines 263-276 / 292-303): depth is tracked over `{[` / `}]` only, and is
updated before the comma test.  Returns every flushed chunk plus the final
`current` (which the two callers treat differently, as in the source). -/
def splitCommasOA : List Char → Int → List Char → List (List Char)
  | [], _, current => [current.reverse]
  | c :: rest, depth, current =>
    let depth' :=
      if c = lbC ∨ c = '[' then depth + 1
      else if c = rbC ∨ c = ']' then depth - 1
      else depth
    if c == ',' && depth' == 0 then current.reverse :: splitCommasOA rest depth' []
    else splitCommasOA rest depth' (c :: current)

/-- One `key: value` entry of an object literal (lines 270-280): a chunk
contributes only if it contains `:`; the final chunk must also strip
nonempty. -/
def objAdd (ev : List Char → Ctx → Except RErr Val) (ctx : Ctx)
    (finalChunk : Bool) (acc : List (List Char × Val)) (chunk : List Char) :
    Except RErr (List (List Char × Val)) :=
  if finalChunk && (pyStrip chunk).isEmpty then pure acc
  else if pyContains chunk [':'] then
    match splitFirstOn chunk [':'] with
    | Option.some (k, v) => do
      let w ← ev (pyStrip v) ctx
      pure (dictInsert acc (pyStrip k) w)
    | Option.none => pure acc
  else pure acc

/-- `eval_object` (lines 255-282). -/
def eval_object (ev : List Char → Ctx → Except RErr Val) (expr : List Char)
    (ctx : Ctx) : Except RErr Val := do
  let inner := pyStrip (expr.dropLast.drop 1)
  if inner.isEmpty then pure (.dict [])
  else
    let chunks := splitCommasOA inner 0 []
    let acc ← chunks.dropLast.foldlM (objAdd ev ctx false) []
    let acc ← objAdd ev ctx true acc (chunks.getLastD [])
    pure (.dict acc)

/-- `eval_array` (lines 285-308): every comma-flushed chunk is evaluated
and appended (even an empty one); the trailing chunk only if it strips
nonempty. -/
def eval_array (ev : List Char → Ctx → Except RErr Val) (expr : List Char)
    (ctx : Ctx) : Except RErr Val := do
  let inner := pyStrip (expr.dropLast.drop 1)
  if inner.isEmpty then pure (.list [])
  else
    let chunks := splitCommasOA inner 0 []
    let vs ← chunks.dropLast.mapM (fun chunk => ev (pyStrip chunk) ctx)
    let lastC := chunks.getLastD []
    if (pyStrip lastC).isEmpty then pure (.list vs)
    else do
      let v ← ev (pyStrip lastC) ctx
      pure (.list (vs ++ [v]))

/-- `eval_ternary` (lines 311-320): the condition is split at the *first*
`?` of the whole string (`expr.index("?")`) and the else-branch at the
last `:` (`expr.rindex(":")`); both branches are evaluated before the
choice. -/
def eval_ternary (ev : List Char → Ctx → Except RErr Val) (expr : List Char)
    (ctx : Ctx) : Except RErr Val := do
  let q_idx := idxOfC '?' expr
  let c_idx := rIdxOfC ':' expr
  let cond ← ev (expr.take q_idx) ctx
  let then_val ← ev ((expr.take c_idx).drop (q_idx + 1)) ctx
  let else_val ← ev (expr.drop (c_idx + 1)) ctx
  pure (if pyTruthy cond then then_val else else_val)

def valueTok : List Char := "value".data
def errorTok : List Char := "error".data
def realTok : List Char := "real".data
def imagTok : List Char := "imag".data
def numeratorTok : List Char := "numerator".data
def denominatorTok : List Char := "denominator".data

/-- The non-dunder method attributes of `int` (and so of `bool`); on these
names `hasattr` is true but `getattr` returns a method object, which is
not a Value.  `bit_count` and `is_integer` exist only on recent CPython
and are listed so that the model never silently answers for them. -/
def intMethNames : List (List Char) :=
  ["bit_length".data, "bit_count".data, "to_bytes".data, "from_bytes".data,
   "as_integer_ratio".data, "conjugate".data, "is_integer".data]

/-- The non-dunder method attributes of `float`. -/
def floatMethNames : List (List Char) :=
  ["is_integer".data, "hex".data, "fromhex".data, "conjugate".data,
   "as_integer_ratio".data]

/-- The non-dunder method attributes of `str`. -/
def strMethNames : List (List Char) :=
  ["capitalize".data, "casefold".data, "center".data, "count".data,
   "encode".data, "endswith".data, "expandtabs".data, "find".data,
   "format".data, "format_map".data, "index".data, "isalnum".data,
   "isalpha".data, "isascii".data, "isdecimal".data, "isdigit".data,
   "isidentifier".data, "islower".data, "isnumeric".data,
   "isprintable".data, "isspace".data, "istitle".data, "isupper".data,
   "join".data, "ljust".data, "lower".data, "lstrip".data,
   "maketrans".data, "partition".data, "removeprefix".data,
   "removesuffix".data, "replace".data, "rfind".data, "rindex".data,
   "rjust".data, "rpartition".data, "rsplit".data, "rstrip".data,
   "split".data, "splitlines".data, "startswith".data, "strip".data,
   "swapcase".data, "title".data, "translate".data, "upper".data,
   "zfill".data]

/-- The non-dunder method attributes of `list`. -/
def listMethNames : List (List Char) :=
  ["append".data, "clear".data, "copy".data, "count".data, "extend".data,
   "index".data, "insert".data, "pop".data, "remove".data, "reverse".data,
   "sort".data]

/-- The non-dunder method attributes of `tuple`. -/
def tupleMethNames : List (List Char) := ["count".data, "index".data]

/-- The non-dunder method attributes of `dict` (unreachable from the
walk, which reads Mappings by key first). -/
def dictMethNames : List (List Char) :=
  ["clear".data, "copy".data, "fromkeys".data, "get".data, "items".data,
   "keys".data, "pop".data, "popitem".data, "setdefault".data,
   "update".data, "values".data]

/-- The non-dunder method attributes of `io_adapter.Ok` / `io_adapter.Err`
(`is_ok`, `is_err`, `unwrap`). -/
def resultMethNames : List (List Char) :=
  ["is_ok".data, "is_err".data, "unwrap".data]

/-- Result of one `hasattr`/`getattr` step (lines 331-332) on a value:
`field` is an attribute whose value is again a Value (a dataclass field,
or a numeric data attribute such as `(5).real == 5`); `unmodelledAttr` is
a name for which `getattr` can return a Python object outside the Value
model (a method, or any `_`-prefixed name, where the dunder machinery
lives) — never silently approximated; `absent` means `hasattr` is false.
`Val.some` follows `primitives.Some` (only the field `value`), `Val.ok`
and `Val.err` follow `io_adapter.Ok`/`io_adapter.Err` (`value` resp.
`error` plus the result methods); the vestigial `primitives.Err` (field
`reason`) is constructed nowhere in the repository and is not modelled,
so `reason` is absent on `Val.err` exactly as on an `io_adapter.Err`. -/
inductive AttrRes where
  | field : Val → AttrRes
  | unmodelledAttr : AttrRes
  | absent : AttrRes

/-- Attribute lookup (`hasattr`/`getattr`, lines 331-332) on the value
model; see `AttrRes`. -/
def getattrVal : Val → List Char → AttrRes
  | .none_, k => if (k.headD ' ') = '_' then .unmodelledAttr else .absent
  | .bool b, k =>
    if k = realTok ∨ k = numeratorTok then .field (.int (if b then 1 else 0))
    else if k = imagTok then .field (.int 0)
    else if k = denominatorTok then .field (.int 1)
    else if k ∈ intMethNames ∨ (k.headD ' ') = '_' then .unmodelledAttr
    else .absent
  | .int i, k =>
    if k = realTok ∨ k = numeratorTok then .field (.int i)
    else if k = imagTok then .field (.int 0)
    else if k = denominatorTok then .field (.int 1)
    else if k ∈ intMethNames ∨ (k.headD ' ') = '_' then .unmodelledAttr
    else .absent
  | .float q, k =>
    if k = realTok then .field (.float q)
    else if k = imagTok then .field (.float 0)
    else if k ∈ floatMethNames ∨ (k.headD ' ') = '_' then .unmodelledAttr
    else .absent
  | .str _, k =>
    if k ∈ strMethNames ∨ (k.headD ' ') = '_' then .unmodelledAttr else .absent
  | .list _, k =>
    if k ∈ listMethNames ∨ (k.headD ' ') = '_' then .unmodelledAttr else .absent
  | .tuple _, k =>
    if k ∈ tupleMethNames ∨ (k.headD ' ') = '_' then .unmodelledAttr else .absent
  | .dict _, k =>
    if k ∈ dictMethNames ∨ (k.headD ' ') = '_' then .unmodelledAttr else .absent
  | .some v, k =>
    if k = valueTok then .field v
    else if (k.headD ' ') = '_' then .unmodelledAttr
    else .absent
  | .ok v, k =>
    if k = valueTok then .field v
    else if k ∈ resultMethNames ∨ (k.headD ' ') = '_' then .unmodelledAttr
    else .absent
  | .err e, k =>
    if k = errorTok then .field e
    else if k ∈ resultMethNames ∨ (k.headD ' ') = '_' then .unmodelledAttr
    else .absent

/-- The field-reading loop of `eval_property_access` (lines 328-334): a
Mapping is read by key with `None_` as default; otherwise a present
attribute is followed, and an unresolvable access (`hasattr` false)
returns `None_` for the whole chain at once.  A step onto an attribute
whose Python value is outside the Value model surfaces as the explicit
`unmodelled` error. -/
def propWalk : Val → List (List Char) → Except RErr Val
  | value, [] => pure value
  | .dict d, p :: rest => propWalk ((lookupCtx p d).getD .none_) rest
  | value, p :: rest =>
    match getattrVal value p with
    | .field w => propWalk w rest
    | .unmodelledAttr => .error .unmodelled
    | .absent => pure .none_

/-- `eval_property_access` (lines 323-336); the source function returns a
plain value and cannot raise — the `unmodelled` error marks only walks
that leave the Value model (a method attribute), never a source raise. -/
def eval_property_access (expr : List Char) (ctx : Ctx) : Except RErr Val :=
  match splitAllOn '.' expr with
  | [] => pure .none_
  | p0 :: rest => propWalk ((lookupCtx p0 ctx).getD (eval_literal p0)) rest

/-- Python `int(x)` as used by `eval_index_access` and `toNumber`. -/
def pyToIntV : Val → Except RErr Int
  | .int i => pure i
  | .bool b => pure (if b then 1 else 0)
  | .float q => pure (q.num.tdiv (q.den : Int))
  | .str s =>
    match pyIntParse s with
    | Option.some i => pure i
    | Option.none => .error .valueError
  | _ => .error .typeError

/-- Python sequence subscription `l[i]`: nonnegative indices in range,
negative indices from the end, `IndexError` otherwise. -/
def pySeqGet (l : List Val) (i : Int) : Except RErr Val :=
  if 0 ≤ i then
    match l.get? i.toNat with
    | Option.some v => pure v
    | Option.none => .error .indexError
  else
    let j := (l.length : Int) + i
    if 0 ≤ j then
      match l.get? j.toNat with
      | Option.some v => pure v
      | Option.none => .error .indexError
    else .error .indexError

/-- The subscription step of `eval_index_access` (lines 345-349), after
base and index are evaluated: a Sequence is read at `int(index)` guarded
only by `int(index) < len(base)` (so a negative index wraps or raises); a
Mapping is read with `.get(index, NONE)` (unhashable index values raise
`TypeError`); any other base yields `None_`. -/
def indexCore (base index : Val) : Except RErr Val :=
  match base with
  | .list l => do
    let i ← pyToIntV index
    if i < (l.length : Int) then pySeqGet l i else pure .none_
  | .tuple l => do
    let i ← pyToIntV index
    if i < (l.length : Int) then pySeqGet l i else pure .none_
  | .dict d =>
    match index with
    | .str k => pure ((lookupCtx k d).getD .none_)
    | .list _ => .error .typeError
    | .dict _ => .error .typeError
    | .some _ => .error .typeError
    | .ok _ => .error .typeError
    | .err _ => .error .typeError
    | _ => pure .none_
  | _ => pure .none_

/-- `eval_index_access` (lines 339-349); only called by the dispatcher
when `[` is present and `]` ends the expression. -/
def eval_index_access (ev : List Char → Ctx → Except RErr Val)
    (expr : List Char) (ctx : Ctx) : Except RErr Val := do
  let bracket_idx := idxOfC '[' expr
  let base ← ev (expr.take bracket_idx) ctx
  let index ← ev (expr.dropLast.drop (bracket_idx + 1)) ctx
  indexCore base index

/-! ### Builtin function calls (`eval_function_call`, lines 352-391) -/

def lengthTok : List Char := "length".data
def uppercaseTok : List Char := "uppercase".data
def lowercaseTok : List Char := "lowercase".data
def toStringTok : List Char := "toString".data
def toNumberTok : List Char := "toNumber".data
def absTok : List Char := "abs".data
def minTok : List Char := "min".data
def maxTok : List Char := "max".data
def sumTok : List Char := "sum".data
def keysTok : List Char := "keys".data
def valuesTok : List Char := "values".data
def filterTok : List Char := "filter".data
def mapTok : List Char := "map".data

/-- The explicit name tuple of the function-call guard (lines 148-150). -/
def builtinListTok : List (List Char) :=
  [filterTok, mapTok, lengthTok, uppercaseTok, lowercaseTok, toStringTok,
   toNumberTok, absTok, minTok, maxTok, sumTok, keysTok, valuesTok]

def unaryBuiltins : List (List Char) :=
  [lengthTok, uppercaseTok, lowercaseTok, toStringTok, toNumberTok, absTok,
   minTok, maxTok, sumTok, keysTok, valuesTok]

/-- Python `len(x)` for values with `__len__`. -/
def pyLen : Val → Option Nat
  | .str s => Option.some s.length
  | .list l => Option.some l.length
  | .tuple l => Option.some l.length
  | .dict d => Option.some d.length
  | _ => Option.none

/-- Python `str(x)`; containers, dataclasses and non-dyadic floats have no
finite faithful repr model here and are unreachable in the verified
claims. -/
def pyStr : Val → Except RErr (List Char)
  | .str s => pure s
  | .int i => pure (toString i).data
  | .bool b => pure (if b then "True".data else "False".data)
  | .none_ => pure "None_".data
  | .float q => if q.den = 1 then pure ((toString q.num).data ++ ".0".data) else .error .unmodelled
  | _ => .error .unmodelled

/-- Python `float(x)`. -/
def pyToFloatV : Val → Except RErr Val
  | .int i => pure (.float (ratOfInt i))
  | .bool b => pure (.float (ratOfInt (if b then 1 else 0)))
  | .float q => pure (.float q)
  | .str s =>
    match pyFloatParse s with
    | Option.some q => pure (.float q)
    | Option.none => .error .valueError
  | _ => .error .typeError

/-- Python `min`/`max` of one iterable argument (list/tuple); string and
dict iteration are unreachable here and left unmodelled. -/
def pyMinMax (isMin : Bool) : Val → Except RErr Val
  | .list (v :: vs) =>
    vs.foldlM
      (fun best y => do
        let swap ← if isMin then pyLtB y best else pyLtB best y
        pure (if swap then y else best)) v
  | .tuple (v :: vs) =>
    vs.foldlM
      (fun best y => do
        let swap ← if isMin then pyLtB y best else pyLtB best y
        pure (if swap then y else best)) v
  | .list [] => .error .valueError
  | .tuple [] => .error .valueError
  | .str _ => .error .unmodelled
  | .dict _ => .error .unmodelled
  | _ => .error .typeError

/-- The builtin table of lines 359-371, applied to the evaluated argument. -/
def applyBuiltin (name : List Char) (x : Val) : Except RErr Val :=
  if name = lengthTok then pure (.int ((pyLen x).getD 0))
  else if name = uppercaseTok then do pure (.str ((← pyStr x).map Char.toUpper))
  else if name = lowercaseTok then do pure (.str ((← pyStr x).map Char.toLower))
  else if name = toStringTok then do pure (.str (← pyStr x))
  else if name = toNumberTok then do
    let s ← pyStr x
    if pyContains s ['.'] then pyToFloatV x
    else do pure (.int (← pyToIntV x))
  else if name = absTok then
    match x with
    | .int i => pure (.int (if i < 0 then -i else i))
    | .bool b => pure (.int (if b then 1 else 0))
    | .float q => pure (.float (if q.num < 0 then Rat.divInt (-q.num) (q.den : Int) else q))
    | _ => .error .typeError
  else if name = minTok then pyMinMax true x
  else if name = maxTok then pyMinMax false x
  else if name = sumTok then
    match x with
    | .list vs => vs.foldlM (fun acc y => pyArith .add acc y) (.int 0)
    | .tuple vs => vs.foldlM (fun acc y => pyArith .add acc y) (.int 0)
    | .dict _ => .error .unmodelled
    | _ => .error .typeError
  else if name = keysTok then
    match x with
    | .dict d => pure (.list (d.map (fun kv => .str kv.1)))
    | _ => pure (.list [])
  else if name = valuesTok then
    match x with
    | .dict d => pure (.list (d.map (fun kv => kv.2)))
    | _ => pure (.list [])
  else pure .none_

/-- The list comprehension of the `filter` builtin (line 382), with
Python's left-to-right evaluation of the predicate. -/
def listFilterM (pred : Val → Except RErr Val) : List Val → Except RErr (List Val)
  | [] => pure []
  | x :: xs => do
    let c ← pred x
    let rest ← listFilterM pred xs
    pure (if pyTruthy c then x :: rest else rest)

/-- The list comprehension of the `map` builtin (line 389). -/
def listMapM (f : Val → Except RErr Val) : List Val → Except RErr (List Val)
  | [] => pure []
  | x :: xs => do
    let y ← f x
    let rest ← listMapM f xs
    pure (y :: rest)

/-! ### The compiled closure (`parse_expr`, lines 66-103) -/

def arrowTok : List Char := "=>".data

/-- The per-parameter binding loop of lines 90-99, factored out of the
compiled closure: one parameter binds the whole input; several parameters
destructure a Sequence input positionally with `None_` for the surplus,
and bind only the first parameter for a non-Sequence input.  The context
is built by repeated dict assignment; `lookupCtx` finds the most recent
binding first, matching dict overwrite. -/
def buildCtx (param_names : List (List Char)) (input : Val) : Ctx :=
  match param_names with
  | [p] => [(p, input)]
  | _ =>
    match input with
    | .list xs => multiBindGo xs param_names 0 []
    | .tuple xs => multiBindGo xs param_names 0 []
    | _ =>
      match param_names with
      | [] => []
      | p0 :: _ => [(p0, input)]
where
  /-- The loop `for i, name in enumerate(param_names)` of lines 96-97,
  with the running index explicit; each dict assignment is a prepend, so
  `lookupCtx` sees the latest duplicate first, exactly like dict
  overwrite. -/
  multiBindGo (xs : List Val) : List (List Char) → Nat → Ctx → Ctx
    | [], _, ctx => ctx
    | nm :: rest, i, ctx => multiBindGo xs rest (i + 1) ((nm, xs.getD i .none_) :: ctx)

/-- `parse_expr` (lines 66-103), abstracted over the expression evaluator
so that the definition is not mutually recursive with `evalExpr`: no
`=>` compiles to a constant literal; otherwise the parameter list (bare
name, or parenthesized comma list) is bound over the input and the body
is evaluated in that context. -/
def parseClosure (ev : List Char → Ctx → Except RErr Val) (expr : List Char) :
    Val → Except RErr Val :=
  match splitFirstOn expr arrowTok with
  | Option.none => fun _ => pure (eval_literal expr)
  | Option.some (ps, body0) =>
    let params := pyStrip ps
    let body := pyStrip body0
    let param_names :=
      if pyStartsWith params ['('] && pyEndsWith params [')'] then
        (splitAllOn ',' (params.dropLast.drop 1)).map pyStrip
      else [pyStrip params]
    fun input => ev body (buildCtx param_names input)

def splitArgsGo : List Char → Int → List Char → List (List Char)
  | [], _, current => [current.reverse]
  | c :: rest, depth, current =>
    let depth' :=
      if c ∈ openBs then depth + 1
      else if c ∈ closeBs then depth - 1
      else depth
    if c == ',' && depth' == 0 then current.reverse :: splitArgsGo rest depth' []
    else splitArgsGo rest depth' (c :: current)

/-- `split_args` (lines 394-411): depth-0 comma split over all three
bracket kinds; inner flushes append the stripped chunk unconditionally,
the trailing chunk only when strip-nonempty. -/
def split_args (s : List Char) : List (List Char) :=
  let chunks := splitArgsGo s 0 []
  chunks.dropLast.map pyStrip ++
    (if (pyStrip (chunks.getLastD [])).isEmpty then []
     else [pyStrip (chunks.getLastD [])])

/-- `eval_function_call` (lines 352-391): unary builtins evaluate their
whole argument string; `filter`/`map` split the arguments at depth-0
commas, evaluate the first and compile the second (`parts[1]` raising
`IndexError` when missing); unknown names return `None_`. -/
def eval_function_call (ev : List Char → Ctx → Except RErr Val)
    (expr : List Char) (ctx : Ctx) : Except RErr Val :=
  let paren_idx := idxOfC '(' expr
  let fn_name := expr.take paren_idx
  let args_str := expr.dropLast.drop (paren_idx + 1)
  if fn_name ∈ unaryBuiltins then do
    let arg ← ev args_str ctx
    applyBuiltin fn_name arg
  else if fn_name = filterTok then
    match (split_args args_str).get? 0, (split_args args_str).get? 1 with
    | Option.some p0, Option.some p1 => do
      let lst ← ev p0 ctx
      match lst with
      | .list l => do pure (.list (← listFilterM (parseClosure ev p1) l))
      | .tuple l => do pure (.list (← listFilterM (parseClosure ev p1) l))
      | .str _ => .error .unmodelled
      | .dict _ => .error .unmodelled
      | _ => .error .typeError
    | _, _ => .error .indexError
  else if fn_name = mapTok then
    match (split_args args_str).get? 0, (split_args args_str).get? 1 with
    | Option.some p0, Option.some p1 => do
      let lst ← ev p0 ctx
      match lst with
      | .list l => do pure (.list (← listMapM (parseClosure ev p1) l))
      | .tuple l => do pure (.list (← listMapM (parseClosure ev p1) l))
      | .str _ => .error .unmodelled
      | .dict _ => .error .unmodelled
      | _ => .error .typeError
    | _, _ => .error .indexError
  else pure .none_

/-! ### The dispatcher (`eval_expr`, lines 130-232) -/

def parenDepthSum (s : List Char) : Int :=
  s.foldl (fun d c => if c = '(' then d + 1 else if c = ')' then d - 1 else d) 0

/-- The function-call guard of lines 144-158: `(` present, `)` last, the
prefix an identifier or listed builtin name, and the parens from the
first `(` on summing to balance. -/
def isFunctionCallForm (expr : List Char) : Bool :=
  pyContains expr ['('] && pyEndsWith expr [')'] &&
    (let paren_idx := idxOfC '(' expr
     let fn_name := expr.take paren_idx
     (pyIsIdentifier fn_name || fn_name ∈ builtinListTok) &&
       parenDepthSum (expr.drop paren_idx) == 0)

/-- The ternary guard of lines 162-173: both `?` and `:` present and a
depth-0 `?` at strictly positive index. -/
def isTernaryForm (expr : List Char) : Bool :=
  pyContains expr ['?'] && pyContains expr [':'] && 0 < ternaryQPos expr

def andTok : List Char := [' ', '&', '&', ' ']
def orTok : List Char := [' ', '|', '|', ' ']

/-- `eval_expr` (lines 130-232), with fuel making the recursion over
substrings structural.  The branch order is the source's: object and
array literals, function-call form, ternary, comparisons, logicals,
spaced arithmetic (splitting at the rightmost depth-0 occurrence),
property access, index access, context lookup, literal fall-through. -/
def evalExpr : Nat → List Char → Ctx → Except RErr Val
  | 0, _, _ => .error .outOfFuel
  | n + 1, expr0, ctx =>
    let expr := pyStrip expr0
    if pyStartsWith expr [lbC] && pyEndsWith expr [rbC] then
      eval_object (fun e c => evalExpr n e c) expr ctx
    else if pyStartsWith expr ['['] && pyEndsWith expr [']'] then
      eval_array (fun e c => evalExpr n e c) expr ctx
    else if isFunctionCallForm expr then
      eval_function_call (fun e c => evalExpr n e c) expr ctx
    else if isTernaryForm expr then
      eval_ternary (fun e c => evalExpr n e c) expr ctx
    else
      match findCmpSplit cmpOps expr with
      | Option.some (l, r, op) => do
        let lv ← evalExpr n l ctx
        let rv ← evalExpr n r ctx
        pyCmpOp op lv rv
      | Option.none =>
        match findOpSplit expr andTok with
        | Option.some (l, r) => do
          let lv ← evalExpr n l ctx
          if pyTruthy lv then evalExpr n r ctx else pure lv
        | Option.none =>
          match findOpSplit expr orTok with
          | Option.some (l, r) => do
            let lv ← evalExpr n l ctx
            if pyTruthy lv then pure lv else evalExpr n r ctx
          | Option.none =>
            match findArithSplit arithOps expr with
            | Option.some (l, r, op) => do
              let lv ← evalExpr n l ctx
              let rv ← evalExpr n r ctx
              match lv, op with
              | .str s, .add => do pure (.str (s ++ (← pyStr rv)))
              | _, _ => pyArith op lv rv
            | Option.none =>
              if pyContains expr ['.'] && !isDigitC (expr.headD ' ') then
                eval_property_access expr ctx
              else if pyContains expr ['['] && pyEndsWith expr [']'] then
                eval_index_access (fun e c => evalExpr n e c) expr ctx
              else
                match lookupCtx expr ctx with
                | Option.some v => pure v
                | Option.none => pure (eval_literal expr)

/-- `parse_expr` at a given fuel: the public compile entry point. -/
def parse_expr (n : Nat) (expr : List Char) : Val → Except RErr Val :=
  parseClosure (fun e c => evalExpr n e c) expr

/-! ### Units and combinators (`Block`, `Primitives`, lines 49-59 and 418-489) -/

/-- `Block` (lines 49-59): a named callable unit; the name is a trace
label with no effect on execution. -/
structure Block where
  name : String
  fn : Val → Except RErr Val

/-- A `branch` target (line 438): an expression string or an existing
Block (`then if callable(then) else parse_expr(then)`). -/
inductive BTarget where
  | expr : List Char → BTarget
  | block : Block → BTarget

def BTarget.toFn (n : Nat) : BTarget → (Val → Except RErr Val)
  | .expr e => parse_expr n e
  | .block b => b.fn

/-- The loop of `repeat` (lines 482-488): up to `k` more iterations; test
the condition, stop when falsy, otherwise replace the value by the body's
output. -/
def repeatGo (cond body : Val → Except RErr Val) : Nat → Val → Except RErr Val
  | 0, r => pure r
  | k + 1, r => do
    let c ← cond r
    if pyTruthy c then do
      let r' ← body r
      repeatGo cond body k r'
    else pure r

/-- The documented default of `max_iterations` (line 479). -/
def DEFAULT_MAX_ITERATIONS : Nat := 1000

namespace Primitives

/-- `Primitives.transform` (lines 421-425). -/
def transform (n : Nat) (fnExpr : List Char) : Block :=
  ⟨"transform", parse_expr n fnExpr⟩

/-- `Primitives.filter` (lines 427-435): a list input keeps the elements
with a truthy predicate; any other input becomes `Some`/`None_` by the
predicate's truthiness.  Note the source tests `isinstance(x, list)`
only. -/
def filter (n : Nat) (predicate : List Char) : Block :=
  ⟨"filter", fun x =>
    match x with
    | .list items => do pure (.list (← listFilterM (parse_expr n predicate) items))
    | _ => do
      let c ← parse_expr n predicate x
      pure (if pyTruthy c then .some x else .none_)⟩

/-- `Primitives.branch` (lines 437-447). -/
def branch (n : Nat) (condition : List Char) (then_ else_ : BTarget) : Block :=
  ⟨"branch", fun x => do
    let c ← parse_expr n condition x
    if pyTruthy c then BTarget.toFn n then_ x else BTarget.toFn n else_ x⟩

/-- `Primitives.pipe` (lines 449-458): left-to-right sequential
composition; raised failures propagate. -/
def pipe (blocks : List Block) : Block :=
  ⟨"pipe", fun x => blocks.foldlM (fun r b => b.fn r) x⟩

/-- The generator `(block(x) for block in blocks)` consumed by `tuple(...)`
(line 464): each block invoked on the same input, in declaration order,
with the first raised failure propagating. -/
def invokeAll : List Block → Val → Except RErr (List Val)
  | [], _ => pure []
  | b :: rest, x => do
    let v ← b.fn x
    let vs ← invokeAll rest x
    pure (v :: vs)

/-- `Primitives.parallel` (lines 460-465): the same input to every block,
results collected in declaration order as a tuple. -/
def parallel (blocks : List Block) : Block :=
  ⟨"parallel", fun x => do pure (.tuple (← invokeAll blocks x))⟩

/-- `Primitives.fanout` (lines 467-470): alias of `parallel`. -/
def fanout (blocks : List Block) : Block :=
  parallel blocks

/-- `Primitives.merge` (lines 472-476): same machinery as `transform`. -/
def merge (n : Nat) (fnExpr : List Char) : Block :=
  ⟨"merge", parse_expr n fnExpr⟩

/-- `Primitives.repeat` (lines 478-489); the source name `repeat` is a
reserved token in Lean, hence the prime. -/
def repeat' (n : Nat) (condition : List Char) (block : Block)
    (max_iterations : Nat) : Block :=
  ⟨"repeat", fun x => repeatGo (parse_expr n condition) block.fn max_iterations x⟩

end Primitives

/-- `unwrap` (`io_primitives.py` lines 210-218): `Ok(v)` unwraps, `Err(e)`
raises the propagated failure carrying `e`, anything else passes through
unchanged. -/
def unwrap : Block :=
  ⟨"unwrap()", fun result =>
    match result with
    | .ok v => pure v
    | .err e => .error (.unwrapFailed e)
    | v => pure v⟩

/-- Modelled from the spec (§4.1: the ternary "selects the `?` that
occurs at bracket-depth 0"): identical to `eval_ternary` except that the
condition is split at the depth-0 `?` found by the dispatcher's scan.
This definition follows the spec's words and exists only for the
refinement comparison with the source's `eval_ternary`. -/
def eval_ternary_spec (ev : List Char → Ctx → Except RErr Val) (expr : List Char)
    (ctx : Ctx) : Except RErr Val := do
  let q_idx := (ternaryQPos expr).toNat
  let c_idx := rIdxOfC ':' expr
  let cond ← ev (expr.take q_idx) ctx
  let then_val ← ev ((expr.take c_idx).drop (q_idx + 1)) ctx
  let else_val ← ev (expr.drop (c_idx + 1)) ctx
  pure (if pyTruthy cond then then_val else else_val)

/-! ## Theorems on the claims -/

/-- `pipe` on a cons: invoke the head, feed its output to the rest. -/
theorem pipe_fn_cons (b : Block) (bs : List Block) (x : Val) :
    (Primitives.pipe (b :: bs)).fn x = b.fn x >>= fun y => (Primitives.pipe bs).fn y :=
  rfl

/-- C6: `pipe` satisfies the monoid laws extensionally: with zero units it
returns its input unchanged for every input, and for all Units A, B, C and
every input x, `pipe(pipe(A,B),C)(x) = pipe(A,pipe(B,C))(x) = C(B(A(x)))`
(composition in the propagated-failure monad). -/
theorem C6_pipe_monoid_laws :
    (∀ x : Val, (Primitives.pipe []).fn x = .ok x) ∧
    (∀ (A B C : Block) (x : Val),
      (Primitives.pipe [Primitives.pipe [A, B], C]).fn x
          = (Primitives.pipe [A, Primitives.pipe [B, C]]).fn x ∧
        (Primitives.pipe [Primitives.pipe [A, B], C]).fn x
          = (A.fn x >>= fun a => B.fn a >>= fun b => C.fn b)) := by
  refine ⟨fun x => rfl, fun A B C x => ?_⟩
  have h1 : (Primitives.pipe [Primitives.pipe [A, B], C]).fn x
      = (A.fn x >>= fun a => B.fn a >>= fun b => C.fn b) := by
    show ((A.fn x >>= fun y => B.fn y >>= pure) >>= fun y => C.fn y >>= pure)
        = (A.fn x >>= fun a => B.fn a >>= fun b => C.fn b)
    simp only [bind_pure]
    rw [bind_assoc]
  have h2 : (Primitives.pipe [A, Primitives.pipe [B, C]]).fn x
      = (A.fn x >>= fun a => B.fn a >>= fun b => C.fn b) := by
    show (A.fn x >>= fun y => (B.fn y >>= fun z => C.fn z >>= pure) >>= pure)
        = (A.fn x >>= fun a => B.fn a >>= fun b => C.fn b)
    simp only [bind_pure]
  exact ⟨h1.trans h2.symm, h1⟩

/-- The invocations of `parallel` collect, in order, exactly the output of
each block on the shared input. -/
theorem invokeAll_eq_ok (x : Val) :
    ∀ (bs : List Block) (vs : List Val), vs.length = bs.length →
      (∀ i (hb : i < bs.length) (hv : i < vs.length),
        (bs.get ⟨i, hb⟩).fn x = .ok (vs.get ⟨i, hv⟩)) →
      Primitives.invokeAll bs x = .ok vs := by
  intro bs
  induction bs with
  | nil =>
    intro vs hlen _
    cases vs with
    | nil => rfl
    | cons v vs => simp at hlen
  | cons b rest ih =>
    intro vs hlen hpt
    cases vs with
    | nil => simp at hlen
    | cons v vs =>
      have h0 := hpt 0 (by simp) (by simp)
      simp only [List.get] at h0
      have htail : Primitives.invokeAll rest x = .ok vs := by
        refine ih vs (by simpa using hlen) ?_
        intro i hb hv
        have := hpt (i + 1) (by simpa using Nat.succ_lt_succ hb)
          (by simpa using Nat.succ_lt_succ hv)
        simpa using this
      have hstep : Primitives.invokeAll (b :: rest) x
          = (b.fn x >>= fun v0 =>
              Primitives.invokeAll rest x >>= fun vs0 => pure (v0 :: vs0)) := rfl
      rw [hstep]
      simp only [h0, htail]
      rfl

/-- C7: `parallel` (and its alias `fanout`) applies the identical input to
every unit and returns the ordered n-tuple whose i-th component is the
i-th unit's output on that input. -/
theorem C7_parallel_fanout_ordered :
    ∀ (bs : List Block) (x : Val) (vs : List Val), vs.length = bs.length →
      (∀ i (hb : i < bs.length) (hv : i < vs.length),
        (bs.get ⟨i, hb⟩).fn x = .ok (vs.get ⟨i, hv⟩)) →
      (Primitives.parallel bs).fn x = .ok (.tuple vs) ∧
        (Primitives.fanout bs).fn x = .ok (.tuple vs) := by
  intro bs x vs hlen hpt
  have h := invokeAll_eq_ok x bs vs hlen hpt
  constructor
  · simp [Primitives.parallel, h, Except.bind]
  · simp [Primitives.fanout, Primitives.parallel, h, Except.bind]

/-- Witness for C7 at two concrete blocks. -/
theorem C7_parallel_fanout_ordered_witness :
    (Primitives.parallel [Primitives.transform 9 ("x => x + 1".data),
        Primitives.transform 9 ("x => x * 2".data)]).fn (.int 5)
      = .ok (.tuple [.int 6, .int 10]) ∧
    (Primitives.fanout [Primitives.transform 9 ("x => x + 1".data),
        Primitives.transform 9 ("x => x * 2".data)]).fn (.int 5)
      = .ok (.tuple [.int 6, .int 10]) :=
  C7_parallel_fanout_ordered
    [Primitives.transform 9 ("x => x + 1".data),
     Primitives.transform 9 ("x => x * 2".data)]
    (.int 5) [.int 6, .int 10] rfl
    (by
      intro i hb hv
      match i, hb with
      | 0, _ => exact rfl
      | 1, _ => exact rfl)

/-- C9: `unwrap` raises a propagated failure iff its input is `Err(e)`,
and that failure carries `e`; `Ok(v)` unwraps to `v`; every non-Result
input passes through unchanged. -/
theorem C9_unwrap_iff_err :
    (∀ e, unwrap.fn (.err e) = .error (.unwrapFailed e)) ∧
    (∀ v, unwrap.fn (.ok v) = .ok v) ∧
    (∀ v, (∀ e, v ≠ .err e) → (∀ w, v ≠ .ok w) → unwrap.fn v = .ok v) ∧
    (∀ v, (∃ msg, unwrap.fn v = .error msg) ↔ ∃ e, v = .err e) := by
  refine ⟨fun e => rfl, fun v => rfl, fun v hne hno => ?_, fun v => ?_⟩
  · cases v <;> first
      | rfl
      | exact absurd rfl (hne _)
      | exact absurd rfl (hno _)
  · constructor
    · intro ⟨msg, hmsg⟩
      cases v <;> first
        | exact Except.noConfusion hmsg
        | exact ⟨_, rfl⟩
    · intro ⟨e, he⟩
      subst he
      exact ⟨.unwrapFailed e, rfl⟩

/-- Witness for C9 at concrete Result and non-Result inputs. -/
theorem C9_unwrap_iff_err_witness :
    unwrap.fn (.int 3) = .ok (.int 3) ∧
      ((∃ msg, unwrap.fn (.err (.str ("boom".data))) = .error msg)
        ↔ ∃ e, (Val.err (.str ("boom".data))) = .err e) :=
  ⟨C9_unwrap_iff_err.2.2.1 (.int 3) (fun e h => by cases h) (fun w h => by cases h),
   C9_unwrap_iff_err.2.2.2 (.err (.str ("boom".data)))⟩

/-- Binding-loop worker: looking up a name that does not occur in the
remaining parameters reads the accumulator unchanged. -/
theorem lookup_multiBindGo_not_mem (vs : List Val) :
    ∀ (names : List (List Char)) (i0 : Nat) (ctx : Ctx) (nm : List Char),
      ¬ nm ∈ names →
      lookupCtx nm (buildCtx.multiBindGo vs names i0 ctx) = lookupCtx nm ctx := by
  intro names
  induction names with
  | nil => intro i0 ctx nm _; rfl
  | cons n0 rest ih =>
    intro i0 ctx nm hnm
    have hne : nm ≠ n0 := fun h => hnm (by simp [h])
    rw [buildCtx.multiBindGo, ih (i0 + 1) _ nm (fun h => hnm (by simp [h]))]
    simp [lookupCtx, hne]

/-- Binding-loop worker: a parameter whose position is at or beyond the
length of the supplied Sequence ends up bound to `None_` (the latest
duplicate binding wins, exactly as Python dict assignment). -/
theorem lookup_multiBindGo_surplus (vs : List Val) :
    ∀ (names : List (List Char)) (i0 : Nat) (ctx : Ctx)
      (j : Nat) (hj : j < names.length),
      vs.length ≤ i0 + j →
      lookupCtx (names.get ⟨j, hj⟩) (buildCtx.multiBindGo vs names i0 ctx)
        = Option.some .none_ := by
  intro names
  induction names with
  | nil => intro i0 ctx j hj; exact absurd hj (by simp)
  | cons n0 rest ih =>
    intro i0 ctx j hj hsur
    cases j with
    | zero =>
      simp only [List.get]
      by_cases hmem : n0 ∈ rest
      · obtain ⟨⟨j2, hj2⟩, hget⟩ := List.mem_iff_get.mp hmem
        rw [buildCtx.multiBindGo, ← hget]
        exact ih (i0 + 1) _ j2 hj2 (by omega)
      · rw [buildCtx.multiBindGo, lookup_multiBindGo_not_mem vs rest (i0 + 1) _ n0 hmem]
        have hd : vs.getD i0 .none_ = .none_ :=
          List.getD_eq_default _ _ (by omega)
        have hlook : lookupCtx n0 ((n0, vs.getD i0 Val.none_) :: ctx)
            = Option.some (vs.getD i0 Val.none_) := by
          simp [lookupCtx]
        rw [hlook, hd]
    | succ j' =>
      have hj' : j' < rest.length := Nat.lt_of_succ_lt_succ (by simpa using hj)
      rw [buildCtx.multiBindGo]
      have hres := ih (i0 + 1) ((n0, vs.getD i0 .none_) :: ctx) j' hj' (by omega)
      simpa using hres

/-- C10: a compiled multi-parameter lambda invoked with a too-short
Sequence binds the surplus parameters to `None_` and evaluation proceeds;
invoked with a non-Sequence value it binds only the first parameter,
leaving the rest unbound (so a body referencing them falls back to the
literal string). -/
theorem C10_multiparam_binding :
    (∀ (n1 n2 : List Char) (rest : List (List Char)) (vs : List Val)
        (j : Nat) (hj : j < (n1 :: n2 :: rest).length), vs.length ≤ j →
      lookupCtx ((n1 :: n2 :: rest).get ⟨j, hj⟩)
          (buildCtx (n1 :: n2 :: rest) (.list vs)) = Option.some .none_) ∧
    (∀ (n1 n2 : List Char) (rest : List (List Char)) (vs : List Val)
        (j : Nat) (hj : j < (n1 :: n2 :: rest).length), vs.length ≤ j →
      lookupCtx ((n1 :: n2 :: rest).get ⟨j, hj⟩)
          (buildCtx (n1 :: n2 :: rest) (.tuple vs)) = Option.some .none_) ∧
    (∀ (n1 n2 : List Char) (rest : List (List Char)) (input : Val),
      (∀ xs, input ≠ .list xs) → (∀ xs, input ≠ .tuple xs) →
      buildCtx (n1 :: n2 :: rest) input = [(n1, input)]) ∧
    (parse_expr 9 ("(a, b) => b".data) (.list [.int 5]) = .ok .none_) ∧
    (parse_expr 9 ("(a, b) => a".data) (.list [.int 5]) = .ok (.int 5)) ∧
    (parse_expr 9 ("(a, b) => b".data) (.int 5) = .ok (.str ("b".data))) ∧
    (parse_expr 9 ("(a, b) => a".data) (.int 5) = .ok (.int 5)) := by
  refine ⟨?_, ?_, ?_, rfl, rfl, rfl, rfl⟩
  · intro n1 n2 rest vs j hj hsur
    exact lookup_multiBindGo_surplus vs (n1 :: n2 :: rest) 0 [] j hj (by omega)
  · intro n1 n2 rest vs j hj hsur
    exact lookup_multiBindGo_surplus vs (n1 :: n2 :: rest) 0 [] j hj (by omega)
  · intro n1 n2 rest input hl ht
    cases input <;> first
      | rfl
      | exact absurd rfl (hl _)
      | exact absurd rfl (ht _)

/-- C4: property access never raises in the source: each step reads a
field from a Mapping (missing key → `None_`) or the value's attribute —
including the numeric data attributes, e.g. `(5).real` is `5` — any
unresolvable access (`hasattr` false) on a non-Mapping value yields
`None_` for the whole chain at once, and whenever the dispatcher reaches
the property branch the evaluation returns `eval_property_access` — the
evaluator has no error branch for it to reach.  A step onto a method
attribute leaves the Value model and surfaces as the explicit
`unmodelled` marker rather than being asserted either way. -/
theorem C4_property_access_total :
    (∀ (d : List (List Char × Val)) (k : List Char) (rest : List (List Char)),
      lookupCtx k d = Option.none →
      propWalk (.dict d) (k :: rest) = propWalk .none_ rest) ∧
    (∀ (d : List (List Char × Val)) (k : List Char) (rest : List (List Char)) (v : Val),
      lookupCtx k d = Option.some v →
      propWalk (.dict d) (k :: rest) = propWalk v rest) ∧
    (∀ (v : Val) (k : List Char) (rest : List (List Char)),
      (∀ d, v ≠ .dict d) → getattrVal v k = AttrRes.absent →
      propWalk v (k :: rest) = Except.ok Val.none_) ∧
    (∀ (v : Val) (k : List Char) (rest : List (List Char)) (w : Val),
      (∀ d, v ≠ .dict d) → getattrVal v k = AttrRes.field w →
      propWalk v (k :: rest) = propWalk w rest) ∧
    (∀ i : Int, getattrVal (Val.int i) realTok = AttrRes.field (Val.int i)) ∧
    (∀ (n : Nat) (expr0 : List Char) (ctx : Ctx),
      (pyStartsWith (pyStrip expr0) [lbC] && pyEndsWith (pyStrip expr0) [rbC]) = false →
      (pyStartsWith (pyStrip expr0) ['['] && pyEndsWith (pyStrip expr0) [']']) = false →
      isFunctionCallForm (pyStrip expr0) = false →
      isTernaryForm (pyStrip expr0) = false →
      findCmpSplit cmpOps (pyStrip expr0) = Option.none →
      findOpSplit (pyStrip expr0) andTok = Option.none →
      findOpSplit (pyStrip expr0) orTok = Option.none →
      findArithSplit arithOps (pyStrip expr0) = Option.none →
      (pyContains (pyStrip expr0) ['.'] && !isDigitC ((pyStrip expr0).headD ' ')) = true →
      evalExpr (n + 1) expr0 ctx = eval_property_access (pyStrip expr0) ctx) := by
  refine ⟨?_, ?_, ?_, ?_, ?_, ?_⟩
  · intro d k rest h
    simp [propWalk, h]
  · intro d k rest v h
    simp [propWalk, h]
  · intro v k rest hnd h
    cases v <;> first
      | exact absurd rfl (hnd _)
      | (simp [propWalk, h]; rfl)
  · intro v k rest w hnd h
    cases v <;> first
      | exact absurd rfl (hnd _)
      | simp [propWalk, h]
  · intro i
    rfl
  · intro n expr0 ctx h1 h2 h3 h4 h5 h6 h7 h8 h9
    simp only [evalExpr, h1, h2, h3, h4, h5, h6, h7, h8, h9, Bool.false_eq_true,
      if_false, if_true]

/-- Witness for C4 at concrete chains and contexts, including the
attribute read `(5).real`. -/
theorem C4_property_access_total_witness :
    propWalk (.dict []) (("foo".data) :: []) = propWalk .none_ [] ∧
      propWalk (.int 3) (("foo".data) :: []) = Except.ok Val.none_ ∧
      propWalk (.int 5) (("real".data) :: []) = propWalk (.int 5) [] ∧
      getattrVal (Val.int 5) realTok = AttrRes.field (Val.int 5) ∧
      evalExpr 9 ("x.real".data) [(("x".data), .int 5)]
        = eval_property_access (pyStrip ("x.real".data)) [(("x".data), .int 5)] :=
  ⟨C4_property_access_total.1 [] ("foo".data) [] rfl,
   C4_property_access_total.2.2.1 (.int 3) ("foo".data) []
     (fun d h => by cases h) rfl,
   C4_property_access_total.2.2.2.1 (.int 5) ("real".data) [] (.int 5)
     (fun d h => by cases h) rfl,
   C4_property_access_total.2.2.2.2.1 5,
   C4_property_access_total.2.2.2.2.2 8 ("x.real".data)
     [(("x".data), .int 5)] rfl rfl rfl rfl rfl rfl rfl rfl rfl⟩

set_option maxRecDepth 80000 in
/-- The Collatz sequence from 27 reaches 1 (as a float, via `n / 2`) under
the default iteration cap; checked by kernel evaluation of the embedded
interpreter. -/
theorem C8_collatz_aux :
    (Primitives.repeat' 9 ("n => n > 1".data)
        (Primitives.branch 9 ("n => n % 2 == 0".data)
          (.expr ("n => n / 2".data)) (.expr ("n => n * 3 + 1".data)))
        DEFAULT_MAX_ITERATIONS).fn (.int 27) = .ok (.float 1) := rfl

/-- C8: `repeat` applies the body at most `maxIterations` times, stops as
soon as the compiled condition is falsy on the current value, stops
unconditionally after `maxIterations` applications even if the condition
stays truthy, returns the value after the last applied step; the Collatz
composition started at 27 terminates at the float 1 (numerically equal to
the int 1) within the default cap of 1000. -/
theorem C8_repeat_bounded_loop :
    (∀ (cond body : Val → Except RErr Val) (cv g : Val → Val)
        (max : Nat) (x : Val),
      (∀ v, cond v = .ok (cv v)) → (∀ v, body v = .ok (g v)) →
      ∃ k, k ≤ max ∧ repeatGo cond body max x = .ok (g^[k] x) ∧
        (∀ j, j < k → pyTruthy (cv (g^[j] x)) = true) ∧
        (k < max → pyTruthy (cv (g^[k] x)) = false)) ∧
    ((Primitives.repeat' 9 ("n => n > 1".data)
        (Primitives.branch 9 ("n => n % 2 == 0".data)
          (.expr ("n => n / 2".data)) (.expr ("n => n * 3 + 1".data)))
        DEFAULT_MAX_ITERATIONS).fn (.int 27) = .ok (.float 1)) ∧
    pyEq (.float 1) (.int 1) = true := by
  refine ⟨?_, C8_collatz_aux, rfl⟩
  intro cond body cv g max x hc hb
  induction max generalizing x with
  | zero =>
    exact ⟨0, le_rfl, rfl,
      fun j hj => absurd hj (Nat.not_lt_zero j),
      fun h => absurd h (lt_irrefl 0)⟩
  | succ m ih =>
    by_cases ht : pyTruthy (cv x) = true
    · obtain ⟨k, hk, heq, hj, hstop⟩ := ih (g x)
      refine ⟨k + 1, by omega, ?_, ?_, ?_⟩
      · have hstep : repeatGo cond body (m + 1) x = repeatGo cond body m (g x) := by
          show (cond x >>= fun c =>
              if pyTruthy c then body x >>= fun r => repeatGo cond body m r
              else pure x) = repeatGo cond body m (g x)
          rw [hc x]
          show (if pyTruthy (cv x) then body x >>= fun r => repeatGo cond body m r
              else pure x) = repeatGo cond body m (g x)
          rw [if_pos ht, hb x]
          rfl
        rw [hstep, heq, Function.iterate_succ_apply]
      · intro j hjk
        cases j with
        | zero => exact ht
        | succ j' =>
          rw [Function.iterate_succ_apply]
          exact hj j' (by omega)
      · intro hlt
        rw [Function.iterate_succ_apply]
        exact hstop (by omega)
    · refine ⟨0, by omega, ?_, fun j hj => absurd hj (Nat.not_lt_zero j), ?_⟩
      · have hstep : repeatGo cond body (m + 1) x = pure x := by
          show (cond x >>= fun c =>
              if pyTruthy c then body x >>= fun r => repeatGo cond body m r
              else pure x) = pure x
          rw [hc x]
          show (if pyTruthy (cv x) then body x >>= fun r => repeatGo cond body m r
              else pure x) = pure x
          rw [if_neg ht]
        rw [hstep]
        rfl
      · intro _
        simpa using ht

/-- Witness for C8 at a concrete always-false condition. -/
theorem C8_repeat_bounded_loop_witness :
    ∃ k, k ≤ 2 ∧
      repeatGo (fun _ => .ok (.bool false)) (fun v => .ok v) 2 (.int 5)
        = .ok ((fun v : Val => v)^[k] (Val.int 5)) ∧
      (∀ j, j < k →
        pyTruthy ((fun _ : Val => Val.bool false) ((fun v : Val => v)^[j] (Val.int 5))) = true) ∧
      (k < 2 →
        pyTruthy ((fun _ : Val => Val.bool false) ((fun v : Val => v)^[k] (Val.int 5))) = false) :=
  C8_repeat_bounded_loop.1 (fun _ => .ok (.bool false)) (fun v => .ok v)
    (fun _ => .bool false) (fun v => v) 2 (.int 5) (fun _ => rfl) (fun _ => rfl)

/-- C2 counterexample: in `[1 ? 2 : 3] ? 4 : 5` the `?` at bracket-depth 0
is the second one (index 12), but `eval_ternary` splits the condition at
the first, bracket-nested `?` (index 3): the whole expression evaluates to
the leftover string `2 : 3] ? 4`, not to the value 4 selected by the
depth-0 condition (the truthy array `[2]`), as the spec-modelled depth-0
split computes. -/
theorem C2_counterexample :
    evalExpr 9 ("[1 ? 2 : 3] ? 4 : 5".data) [] = .ok (.str ("2 : 3] ? 4".data)) ∧
      eval_ternary_spec (fun e c => evalExpr 8 e c) ("[1 ? 2 : 3] ? 4 : 5".data) []
        = .ok (.int 4) ∧
      ternaryQPos ("[1 ? 2 : 3] ? 4 : 5".data) = 12 ∧
      idxOfC '?' ("[1 ? 2 : 3] ? 4 : 5".data) = 3 ∧
      (Except.ok (Val.str ("2 : 3] ? 4".data)) : Except RErr Val) ≠ .ok (.int 4) := by
  refine ⟨rfl, rfl, rfl, rfl, fun h => ?_⟩
  injection h with h2
  exact Val.noConfusion h2

/-- C2 amended: the ternary dispatch does require a `?` at bracket-depth 0
(at strictly positive index), but `eval_ternary` then splits the condition
at the first `?` of the whole string and the else-branch at the last `:`;
the depth-0 `?` is the split point exactly when no bracket-nested `?`
precedes it, i.e. when the first `?` of the string is the depth-0 one. -/
theorem C2_ternary_split_amended :
    (∀ (ev : List Char → Ctx → Except RErr Val) (expr : List Char) (ctx : Ctx),
      ternaryQPos expr = (idxOfC '?' expr : Int) →
      eval_ternary ev expr ctx = eval_ternary_spec ev expr ctx) ∧
    (evalExpr 9 ("a ? 1 : 2".data) [(("a".data), .bool true)] = .ok (.int 1)) := by
  refine ⟨?_, rfl⟩
  intro ev expr ctx h
  rw [eval_ternary, eval_ternary_spec, h]
  simp only [Int.toNat_natCast]

/-- Witness for the C2 amended theorem at an expression whose first `?` is
the depth-0 one. -/
theorem C2_ternary_split_amended_witness :
    eval_ternary (fun e c => evalExpr 8 e c) ("a ? 1 : 2".data)
        [(("a".data), .bool true)]
      = eval_ternary_spec (fun e c => evalExpr 8 e c) ("a ? 1 : 2".data)
        [(("a".data), .bool true)] :=
  C2_ternary_split_amended.1 (fun e c => evalExpr 8 e c) ("a ? 1 : 2".data)
    [(("a".data), .bool true)] rfl

/-- C3 counterexample: `a[-2]` with `a` bound to the one-element Sequence
`[1]` raises `IndexError` (the guard `int(index) < len(base)` passes for
the negative index and Python subscription raises), instead of returning
`None` as the claim states for out-of-range indices. -/
theorem C3_counterexample :
    evalExpr 9 ("a[-2]".data) [(("a".data), .list [.int 1])] = .error .indexError ∧
      (Except.error RErr.indexError : Except RErr Val) ≠ .ok .none_ :=
  ⟨rfl, fun h => Except.noConfusion h⟩

/-- C3 amended: index access on a Sequence returns `None` exactly for
indices at or beyond the length; indices in `[0, len)` read the element,
negative indices resolve Python-style from the end, and an index below
`-len` raises `IndexError`; on a Mapping a missing key yields `None`. -/
theorem C3_index_access_amended :
    (∀ (l : List Val) (i : Int), (l.length : Int) ≤ i →
      indexCore (.list l) (.int i) = .ok .none_) ∧
    (∀ (l : List Val) (i : Nat) (v : Val), l.get? i = Option.some v →
      indexCore (.list l) (.int (i : Int)) = .ok v) ∧
    (∀ (l : List Val) (i : Int) (v : Val), i < 0 → -(l.length : Int) ≤ i →
      l.get? ((l.length : Int) + i).toNat = Option.some v →
      indexCore (.list l) (.int i) = .ok v) ∧
    (∀ (l : List Val) (i : Int), i < -(l.length : Int) →
      indexCore (.list l) (.int i) = .error .indexError) ∧
    (∀ (d : List (List Char × Val)) (k : List Char), lookupCtx k d = Option.none →
      indexCore (.dict d) (.str k) = .ok .none_) ∧
    (evalExpr 9 ("a[5]".data) [(("a".data), .list [.int 1])] = .ok .none_) ∧
    (evalExpr 9 ("a[k]".data)
      [(("a".data), .dict []), (("k".data), .str ("x".data))] = .ok .none_) := by
  refine ⟨?_, ?_, ?_, ?_, ?_, rfl, rfl⟩
  · intro l i h
    have hnot : ¬ i < (l.length : Int) := by omega
    simp [indexCore, pyToIntV, hnot]
    rfl
  · intro l i v h
    have hlt : i < l.length := List.get?_eq_some.mp h |>.1
    have hcast : ((i : Int)) < (l.length : Int) := by exact_mod_cast hlt
    rw [List.get?_eq_getElem?] at h
    simp [indexCore, pyToIntV, pySeqGet, hcast, Int.toNat_natCast, h]
    rfl
  · intro l i v hneg hge h
    have hlt : i < (l.length : Int) := by omega
    have hnneg : ¬ (0 : Int) ≤ i := by omega
    have hj : (0 : Int) ≤ (l.length : Int) + i := by omega
    rw [List.get?_eq_getElem?] at h
    simp [indexCore, pyToIntV, pySeqGet, hlt, hnneg, hj, h]
    rfl
  · intro l i h
    have hlt : i < (l.length : Int) := by omega
    have hnneg : ¬ (0 : Int) ≤ i := by omega
    have hj : ¬ (0 : Int) ≤ (l.length : Int) + i := by omega
    simp [indexCore, pyToIntV, pySeqGet, hlt, hnneg, hj]
  · intro d k h
    simp [indexCore, h]
    rfl

/-- Witness for the C3 amended theorem at a one-element Sequence and an
empty Mapping. -/
theorem C3_index_access_amended_witness :
    indexCore (.list [.int 7]) (.int 3) = .ok .none_ ∧
      indexCore (.list [.int 7]) (.int (-1)) = .ok (.int 7) ∧
      indexCore (.list [.int 7]) (.int (-2)) = .error .indexError ∧
      indexCore (.dict []) (.str ("k".data)) = .ok .none_ :=
  ⟨C3_index_access_amended.1 [.int 7] 3 (by decide),
   C3_index_access_amended.2.2.1 [.int 7] (-1) (.int 7) (by decide) (by decide) rfl,
   C3_index_access_amended.2.2.2.1 [.int 7] (-2) (by decide),
   C3_index_access_amended.2.2.2.2.1 [] ("k".data) rfl⟩

/-- C5 counterexample: the claim's truthiness table ("None/false/0/empty
string/empty sequence falsy, everything else truthy") makes the empty
Mapping truthy, so `filter("x => x")` would map `{}` to `Some({})`; the
code uses Python truthiness, under which `{}` is falsy, and returns
`None`. -/
theorem C5_counterexample :
    (Primitives.filter 9 ("x => x".data)).fn (.dict []) = .ok .none_ ∧
      (Except.ok (Val.none_) : Except RErr Val) ≠ .ok (.some (.dict [])) := by
  refine ⟨rfl, fun h => ?_⟩
  injection h with h2
  exact Val.noConfusion h2

/-- The list comprehension of `filter` keeps, in order, exactly the
elements with a truthy predicate value. -/
theorem listFilterM_eq_ok (pred : Val → Except RErr Val) (f : Val → Val) :
    ∀ (l : List Val), (∀ x ∈ l, pred x = .ok (f x)) →
      listFilterM pred l = .ok (l.filter (fun x => pyTruthy (f x))) := by
  intro l
  induction l with
  | nil => intro _; rfl
  | cons x xs ih =>
    intro h
    have hx := h x (by simp)
    have hxs := ih (fun y hy => h y (by simp [hy]))
    rw [listFilterM, hx, hxs]
    show Except.ok (if pyTruthy (f x) = true
        then x :: List.filter (fun y => pyTruthy (f y)) xs
        else List.filter (fun y => pyTruthy (f y)) xs)
      = Except.ok (List.filter (fun y => pyTruthy (f y)) (x :: xs))
    rw [List.filter_cons]

/-- C5 amended: on a Sequence, `filter` returns the in-order sub-sequence
of elements with a truthy predicate (`[1..6]` with the even predicate
gives `[2,4,6]`); on a non-Sequence it returns `Some(v)`/`None` by the
predicate's truthiness — where truthiness is Python's: besides
`None`/`false`/`0`/empty string/empty Sequence, the float `0.0`, the
empty tuple and the empty Mapping are also falsy, and everything else is
truthy. -/
theorem C5_filter_truthiness_amended :
    ((Primitives.filter 9 ("x => x % 2 == 0".data)).fn
        (.list [.int 1, .int 2, .int 3, .int 4, .int 5, .int 6])
      = .ok (.list [.int 2, .int 4, .int 6])) ∧
    (∀ (n : Nat) (p : List Char) (l : List Val) (f : Val → Val),
      (∀ x ∈ l, parse_expr n p x = .ok (f x)) →
      (Primitives.filter n p).fn (.list l)
        = .ok (.list (l.filter (fun x => pyTruthy (f x))))) ∧
    (∀ (n : Nat) (p : List Char) (v w : Val),
      (∀ xs, v ≠ .list xs) → parse_expr n p v = .ok w →
      (Primitives.filter n p).fn v
        = .ok (if pyTruthy w then .some v else .none_)) ∧
    (∀ v : Val, pyTruthy v = false ↔
      (v = .none_ ∨ v = .bool false ∨ v = .int 0 ∨ v = .float 0 ∨
        v = .str [] ∨ v = .list [] ∨ v = .tuple [] ∨ v = .dict [])) := by
  refine ⟨rfl, ?_, ?_, ?_⟩
  · intro n p l f h
    have hfm := listFilterM_eq_ok (parse_expr n p) f l h
    show (listFilterM (parse_expr n p) l >>= fun r => pure (Val.list r))
      = .ok (.list (l.filter (fun x => pyTruthy (f x))))
    rw [hfm]
    rfl
  · intro n p v w hnl h
    have hstep : (Primitives.filter n p).fn v
        = (parse_expr n p v >>= fun c =>
            pure (if pyTruthy c then Val.some v else Val.none_)) := by
      cases v <;> first
        | exact absurd rfl (hnl _)
        | rfl
    rw [hstep, h]
    rfl
  · intro v
    cases v <;> simp [pyTruthy]

/-- Witness for the C5 amended theorem at concrete list and scalar
inputs. -/
theorem C5_filter_truthiness_amended_witness :
    (Primitives.filter 9 ("x => x % 2 == 0".data)).fn (.list [.int 1, .int 2])
        = .ok (.list (List.filter (fun x => pyTruthy (Val.bool (pyEq x (.int 2))))
            [.int 1, .int 2])) ∧
      (Primitives.filter 9 ("x => x % 2 == 0".data)).fn (.int 3)
        = .ok (if pyTruthy (.bool false) then .some (.int 3) else .none_) :=
  ⟨C5_filter_truthiness_amended.2.1 9 ("x => x % 2 == 0".data) [.int 1, .int 2]
      (fun x => Val.bool (pyEq x (.int 2)))
      (by
        intro x hx
        rcases List.mem_cons.mp hx with rfl | hx2
        · rfl
        · rcases List.mem_cons.mp hx2 with rfl | hx3
          · rfl
          · cases hx3),
   C5_filter_truthiness_amended.2.2.1 9 ("x => x % 2 == 0".data) (.int 3)
     (.bool false) (fun xs h => by cases h) rfl⟩

/-- Witness for C10 at a concrete parameter list and inputs. -/
theorem C10_multiparam_binding_witness :
    lookupCtx ("b".data)
        (buildCtx [("a".data), ("b".data)] (.list [.int 5])) = Option.some .none_ ∧
      buildCtx [("a".data), ("b".data)] (.int 5) = [(("a".data), .int 5)] :=
  ⟨C10_multiparam_binding.1 ("a".data) ("b".data) [] [.int 5] 1 (by decide) (by decide),
   C10_multiparam_binding.2.2.1 ("a".data) ("b".data) [] (.int 5)
     (fun xs h => by cases h) (fun xs h => by cases h)⟩


/-! ### Infrastructure for the C1 arithmetic theorems

The universal part of C1 quantifies over the numeral spliced into the
source text `x => x + a`.  These lemmas characterise how the evaluator
walks an expression of the form `x + <numeral>`: the numeral's characters
are digits, `-` and `.`, which trigger none of the dispatcher's earlier
branches, so the spaced `+` is found at depth 0 and the operand falls
through to `eval_literal`. -/

/-- The characters a decimal numeral (int or float, possibly signed) can
contain. -/
def operandChars : List Char :=
  ['0', '1', '2', '3', '4', '5', '6', '7', '8', '9', '-', '.']

theorem digit_mem_operand (c : Char) (h : isDigitC c = true) : c ∈ operandChars := by
  simp only [isDigitC, decide_eq_true_eq] at h
  simp only [operandChars]
  simp at h ⊢
  tauto

theorem digit_cases (c : Char) (h : isDigitC c = true) :
    c = '0' ∨ c = '1' ∨ c = '2' ∨ c = '3' ∨ c = '4' ∨
      c = '5' ∨ c = '6' ∨ c = '7' ∨ c = '8' ∨ c = '9' := by
  simpa [isDigitC] using h

/-- A numeral character is distinct from any character outside the
numeral alphabet. -/
theorem operand_ne_of (c : Char) (h : c ∈ operandChars) (t : Char)
    (ht : t ∉ operandChars) : c ≠ t :=
  fun he => ht (he ▸ h)

theorem operand_not_bracket (c : Char) (h : c ∈ operandChars) :
    (c ∈ openBs → False) ∧ (c ∈ closeBs → False) := by
  fin_cases h <;> exact ⟨by decide, by decide⟩

theorem operand_space (c : Char) (h : c ∈ operandChars) : pySpace c = false := by
  fin_cases h <;> decide

theorem pyStartsWith_mem (t : List Char) :
    ∀ (s : List Char), pyStartsWith s t = true → ∀ c ∈ t, c ∈ s := by
  induction t with
  | nil => intro s _ c hc; exact absurd hc (List.not_mem_nil c)
  | cons d ds ih =>
    intro s h c hc
    cases s with
    | nil => exact absurd h (by rw [pyStartsWith]; simp)
    | cons c0 cs =>
      rw [pyStartsWith, Bool.and_eq_true] at h
      obtain ⟨heq, hrest⟩ := h
      have heq2 : c0 = d := by simpa using heq
      rcases List.mem_cons.mp hc with rfl | hc2
      · simp [heq2]
      · exact List.mem_cons_of_mem c0 (ih cs hrest c hc2)

theorem pyContains_mem (t : List Char) :
    ∀ (s : List Char), pyContains s t = true → ∀ c ∈ t, c ∈ s := by
  intro s
  induction s with
  | nil =>
    intro h c hc
    rw [pyContains] at h
    by_cases hsw : pyStartsWith [] t = true
    · exact pyStartsWith_mem t [] hsw c hc
    · rw [if_neg hsw] at h
      exact absurd h (by simp)
  | cons c0 cs ih =>
    intro h c hc
    rw [pyContains] at h
    by_cases hsw : pyStartsWith (c0 :: cs) t = true
    · exact pyStartsWith_mem t (c0 :: cs) hsw c hc
    · rw [if_neg hsw] at h
      exact List.mem_cons_of_mem c0 (ih h c hc)

theorem not_contains_of_char (s t : List Char) (c : Char) (hct : c ∈ t)
    (hcs : c ∉ s) : pyContains s t = false := by
  cases h : pyContains s t
  · rfl
  · exact absurd (pyContains_mem t s h c hct) hcs

theorem dropWhile_eq_self_of (p : Char → Bool) (s : List Char)
    (h : ∀ c ∈ s, p c = false) : s.dropWhile p = s := by
  cases s with
  | nil => rfl
  | cons a l =>
    rw [List.dropWhile_cons, if_neg (by rw [h a (by simp)]; simp)]

theorem pyStrip_no_space (s : List Char) (h : ∀ c ∈ s, pySpace c = false) :
    pyStrip s = s := by
  rw [pyStrip, dropWhile_eq_self_of _ _ h,
    dropWhile_eq_self_of _ _ (fun c hc => h c (List.mem_reverse.mp hc)),
    List.reverse_reverse]

theorem reverse_concat_append (A d' : List Char) (e : Char) :
    (A ++ (d' ++ [e])).reverse = e :: (d'.reverse ++ A.reverse) := by
  simp

/-- Stripping `x + <numeral>` is the identity. -/
theorem pyStrip_xplus (d : List Char) (hne : d ≠ [])
    (hs : ∀ c ∈ d, pySpace c = false) :
    pyStrip (("x + ".data) ++ d) = ("x + ".data) ++ d := by
  obtain ⟨d', e, rfl⟩ := d.eq_nil_or_concat'.resolve_left hne
  have he : pySpace e = false := hs e (by simp)
  rw [pyStrip]
  have h1 : List.dropWhile pySpace (("x + ".data) ++ (d' ++ [e]))
      = ("x + ".data) ++ (d' ++ [e]) := by
    rw [show ("x + ".data) ++ (d' ++ [e])
        = 'x' :: ((" + ".data) ++ (d' ++ [e])) from rfl]
    rw [List.dropWhile_cons, if_neg (by simp [pySpace])]
  have h2 : ((("x + ".data)) ++ (d' ++ [e])).reverse
      = e :: (d'.reverse ++ (("x + ".data)).reverse) :=
    reverse_concat_append _ _ _
  rw [h1, h2, List.dropWhile_cons, if_neg (by simp [he]), ← h2, List.reverse_reverse]

/-- Stripping the body ` x + <numeral>` drops the leading space only. -/
theorem pyStrip_xplus_body (d : List Char) (hne : d ≠ [])
    (hs : ∀ c ∈ d, pySpace c = false) :
    pyStrip ((" x + ".data) ++ d) = ("x + ".data) ++ d := by
  obtain ⟨d', e, rfl⟩ := d.eq_nil_or_concat'.resolve_left hne
  have he : pySpace e = false := hs e (by simp)
  rw [pyStrip]
  have h1 : List.dropWhile pySpace ((" x + ".data) ++ (d' ++ [e]))
      = ("x + ".data) ++ (d' ++ [e]) := by
    rw [show (" x + ".data) ++ (d' ++ [e])
        = ' ' :: (("x + ".data) ++ (d' ++ [e])) from rfl]
    rw [List.dropWhile_cons, if_pos (by simp [pySpace])]
    rw [show ("x + ".data) ++ (d' ++ [e])
        = 'x' :: ((" + ".data) ++ (d' ++ [e])) from rfl]
    rw [List.dropWhile_cons, if_neg (by simp [pySpace])]
  have h2 : ((("x + ".data)) ++ (d' ++ [e])).reverse
      = e :: (d'.reverse ++ (("x + ".data)).reverse) :=
    reverse_concat_append _ _ _
  rw [h1, h2, List.dropWhile_cons, if_neg (by simp [he]), ← h2, List.reverse_reverse]

theorem findAtD0Go_cons_eq (target : List Char) (rightmost : Bool) (c : Char)
    (rest : List Char) (i : Nat) (depth found : Int) :
    findAtD0Go target rightmost (c :: rest) i depth found =
      (if (c :: rest).length < target.length then found
       else if c ∈ openBs then findAtD0Go target rightmost rest (i + 1) (depth + 1) found
       else if c ∈ closeBs then findAtD0Go target rightmost rest (i + 1) (depth - 1) found
       else if depth == 0 && pyStartsWith (c :: rest) target then
         if rightmost then findAtD0Go target rightmost rest (i + 1) depth (i : Int)
         else (i : Int)
       else findAtD0Go target rightmost rest (i + 1) depth found) := rfl

/-- The depth tracker finds no occurrence inside a string whose characters
are bracket-free and never start the target. -/
theorem findAtD0Go_no_match (t0 : Char) (ts : List Char) (rightmost : Bool) :
    ∀ (s : List Char) (i : Nat) (depth found : Int),
      (∀ c ∈ s, (c ∈ openBs → False) ∧ (c ∈ closeBs → False) ∧ c ≠ t0) →
      findAtD0Go (t0 :: ts) rightmost s i depth found = found := by
  intro s
  induction s with
  | nil => intro i depth found _; rfl
  | cons c rest ih =>
    intro i depth found h
    have hc := h c (by simp)
    by_cases hlen : (c :: rest).length < (t0 :: ts).length
    · rw [findAtD0Go_cons_eq, if_pos hlen]
    · rw [findAtD0Go_cons_eq, if_neg hlen]
      have hsw : pyStartsWith (c :: rest) (t0 :: ts) = false := by
        rw [pyStartsWith]
        simp [hc.2.2]
      rw [if_neg (fun hmem => hc.1 hmem), if_neg (fun hmem => hc.2.1 hmem)]
      rw [hsw, Bool.and_false, if_neg (by simp)]
      exact ih (i + 1) depth found (fun e he => h e (by simp [he]))

/-- In `x + <numeral>` the rightmost (indeed only) depth-0 occurrence of
the spaced `+` is at index 1. -/
theorem findAtD0_xplus (dc : Char) (drest : List Char)
    (hop : ∀ c ∈ dc :: drest, c ∈ operandChars) :
    find_at_depth_0 (("x + ".data) ++ (dc :: drest)) (" + ".data) true = 1 := by
  have hspec : ∀ c ∈ dc :: drest,
      (c ∈ openBs → False) ∧ (c ∈ closeBs → False) ∧ c ≠ ' ' := by
    intro c hc
    exact ⟨(operand_not_bracket c (hop c hc)).1, (operand_not_bracket c (hop c hc)).2,
      operand_ne_of c (hop c hc) ' ' (by decide)⟩
  rw [find_at_depth_0]
  -- i = 0, character 'x'
  rw [show (("x + ".data) ++ (dc :: drest)) = 'x' :: ((" + ".data) ++ (dc :: drest)) from rfl]
  rw [findAtD0Go_cons_eq, if_neg (by simp), if_neg (by decide), if_neg (by decide),
    if_neg (by rw [show pyStartsWith ('x' :: ((" + ".data) ++ (dc :: drest))) (" + ".data)
        = false from rfl]; simp)]
  -- i = 1, the match (rightmost, so record and continue)
  rw [show ((" + ".data) ++ (dc :: drest)) = ' ' :: (("+ ".data) ++ (dc :: drest)) from rfl]
  rw [findAtD0Go_cons_eq, if_neg (by simp), if_neg (by decide), if_neg (by decide),
    if_pos (by rw [show pyStartsWith (' ' :: (("+ ".data) ++ (dc :: drest))) (" + ".data)
        = true from rfl]; rfl)]
  rw [if_pos rfl]
  -- i = 2, character '+'
  rw [show (("+ ".data) ++ (dc :: drest)) = '+' :: ((" ".data) ++ (dc :: drest)) from rfl]
  rw [findAtD0Go_cons_eq, if_neg (by simp), if_neg (by decide), if_neg (by decide),
    if_neg (by rw [show pyStartsWith ('+' :: ((" ".data) ++ (dc :: drest))) (" + ".data)
        = false from rfl]; simp)]
  -- i = 3, character ' ' followed by the numeral head
  have hdc : dc ≠ '+' := operand_ne_of dc (hop dc (by simp)) '+' (by decide)
  rw [show ((" ".data) ++ (dc :: drest)) = ' ' :: (dc :: drest) from rfl]
  by_cases hlen : ((' ' :: (dc :: drest)).length < (" + ".data).length)
  · rw [findAtD0Go_cons_eq, if_pos hlen]
    rfl
  · rw [findAtD0Go_cons_eq, if_neg hlen, if_neg (by decide), if_neg (by decide)]
    have hsw : pyStartsWith (' ' :: dc :: drest) (" + ".data) = false := by
      rw [pyStartsWith]
      have h2 : pyStartsWith (dc :: drest) ("+ ".data) = false := by
        rw [pyStartsWith]
        simp [hdc]
      simp [h2]
    rw [hsw, Bool.and_false, if_neg (by simp)]
    exact findAtD0Go_no_match ' ' ("+ ".data) true (dc :: drest) 4 0 1
      (fun c hc => hspec c hc)

/-! ### Numeral literals -/

/-- The decimal source text of an integer: digits, with `-` for a
negative value. -/
def numLit (neg : Bool) (ds : List Char) : List Char :=
  if neg then '-' :: ds else ds

/-- The integer value a numeral denotes. -/
def intOfNumeral (neg : Bool) (ds : List Char) : Int :=
  if neg then -(digitsVal ds : Int) else (digitsVal ds : Int)

theorem digit_ne (c : Char) (h : isDigitC c = true) :
    c ≠ '.' ∧ c ≠ '-' ∧ c ≠ '+' ∧ pySpace c = false := by
  rcases digit_cases c h with rfl | rfl | rfl | rfl | rfl | rfl | rfl | rfl | rfl | rfl <;>
    exact (by decide)

theorem parseDigits_eq (ds : List Char) (hne : ds ≠ [])
    (hd : ∀ c ∈ ds, isDigitC c = true) :
    parseDigits ds = Option.some (digitsVal ds) := by
  rw [parseDigits, if_pos ⟨hne, List.all_eq_true.mpr hd⟩]

theorem numLit_chars (neg : Bool) (ds : List Char)
    (hd : ∀ c ∈ ds, isDigitC c = true) :
    ∀ c ∈ numLit neg ds, c ∈ operandChars := by
  intro c hc
  cases neg with
  | false => exact digit_mem_operand c (hd c hc)
  | true =>
    rcases List.mem_cons.mp hc with rfl | hc2
    · simp [operandChars]
    · exact digit_mem_operand c (hd c hc2)

theorem numLit_ne_nil (neg : Bool) (ds : List Char) (hne : ds ≠ []) :
    numLit neg ds ≠ [] := by
  cases neg <;> simp [numLit, hne]

theorem pyIntParse_numeral (neg : Bool) (ds : List Char) (hne : ds ≠ [])
    (hd : ∀ c ∈ ds, isDigitC c = true) :
    pyIntParse (numLit neg ds) = Option.some (intOfNumeral neg ds) := by
  have hsp : ∀ c ∈ numLit neg ds, pySpace c = false := fun c hc =>
    operand_space c (numLit_chars neg ds hd c hc)
  rw [pyIntParse]
  rw [pyStrip_no_space _ hsp]
  cases neg with
  | true =>
    rw [show numLit true ds = '-' :: ds from rfl]
    show (parseDigits ds).map (fun n => -(n : Int)) = Option.some (intOfNumeral true ds)
    rw [parseDigits_eq ds hne hd]
    rfl
  | false =>
    rw [show numLit false ds = ds from rfl]
    obtain ⟨c, rest, rfl⟩ : ∃ c rest, ds = c :: rest := by
      cases ds with
      | nil => exact absurd rfl hne
      | cons c rest => exact ⟨c, rest, rfl⟩
    have hdc := digit_ne c (hd c (by simp))
    split
    · next heq =>
      injection heq with h1 _
      exact absurd h1 hdc.2.1
    · next heq =>
      injection heq with h1 _
      exact absurd h1 hdc.2.2.1
    · rw [parseDigits_eq _ (by simp) hd]
      rfl

theorem eval_literal_int_numeral (neg : Bool) (ds : List Char) (hne : ds ≠ [])
    (hd : ∀ c ∈ ds, isDigitC c = true) :
    eval_literal (numLit neg ds) = .int (intOfNumeral neg ds) := by
  have hops := numLit_chars neg ds hd
  have hsp : ∀ c ∈ numLit neg ds, pySpace c = false := fun c hc =>
    operand_space c (hops c hc)
  obtain ⟨c, rest, heq, hc⟩ :
      ∃ c rest, numLit neg ds = c :: rest ∧ c ∈ operandChars := by
    cases neg with
    | true => exact ⟨'-', ds, rfl, by simp [operandChars]⟩
    | false =>
      cases ds with
      | nil => exact absurd rfl hne
      | cons c rest => exact ⟨c, rest, rfl, hops c (by simp [numLit])⟩
  have hne_true : ¬ (c :: rest = trueTok) := by
    intro he
    rw [show trueTok = 't' :: ("rue".data) from rfl] at he
    injection he with h1 _
    exact operand_ne_of c hc 't' (by decide) h1
  have hne_false : ¬ (c :: rest = falseTok) := by
    intro he
    rw [show falseTok = 'f' :: ("alse".data) from rfl] at he
    injection he with h1 _
    exact operand_ne_of c hc 'f' (by decide) h1
  have hne_null : ¬ (c :: rest = nullTok) := by
    intro he
    rw [show nullTok = 'n' :: ("ull".data) from rfl] at he
    injection he with h1 _
    exact operand_ne_of c hc 'n' (by decide) h1
  have hdq : pyStartsWith (c :: rest) [dqC] = false := by
    rw [pyStartsWith]
    simp [operand_ne_of c hc dqC (by decide)]
  have hsq : pyStartsWith (c :: rest) [sqC] = false := by
    rw [pyStartsWith]
    simp [operand_ne_of c hc sqC (by decide)]
  rw [eval_literal, pyStrip_no_space _ hsp, heq]
  rw [if_neg hne_true, if_neg hne_false, if_neg hne_null]
  rw [if_neg (by rw [hdq]; simp), if_neg (by rw [hsq]; simp)]
  rw [← heq, pyIntParse_numeral neg ds hne hd]

theorem splitAllOn_no_sep (sep : Char) (l : List Char) (h : sep ∉ l) :
    splitAllOn sep l = [l] := by
  induction l with
  | nil => rfl
  | cons c cs ih =>
    have hc : ¬ c = sep := fun he => h (by simp [he])
    rw [splitAllOn, ih (fun he => h (by simp [he]))]
    simp [hc]

theorem splitAllOn_dot (ds1 ds2 : List Char) (h1 : '.' ∉ ds1) (h2 : '.' ∉ ds2) :
    splitAllOn '.' (ds1 ++ '.' :: ds2) = [ds1, ds2] := by
  induction ds1 with
  | nil =>
    rw [List.nil_append, splitAllOn, splitAllOn_no_sep '.' ds2 h2]
    simp
  | cons c cs ih =>
    have hc : ¬ c = '.' := fun he => h1 (by simp [he])
    rw [show (c :: cs) ++ '.' :: ds2 = c :: (cs ++ '.' :: ds2) from rfl]
    rw [splitAllOn, ih (fun he => h1 (by simp [he]))]
    simp [hc]

theorem float_numeral_space (ds1 ds2 : List Char)
    (hd1 : ∀ c ∈ ds1, isDigitC c = true) (hd2 : ∀ c ∈ ds2, isDigitC c = true) :
    ∀ c ∈ ds1 ++ '.' :: ds2, pySpace c = false := by
  intro c hc
  rcases List.mem_append.mp hc with h | h
  · exact (digit_ne c (hd1 c h)).2.2.2
  · rcases List.mem_cons.mp h with rfl | h
    · rfl
    · exact (digit_ne c (hd2 c h)).2.2.2

theorem pyIntParse_float_none (ds1 ds2 : List Char) (h1 : ds1 ≠ [])
    (hd1 : ∀ c ∈ ds1, isDigitC c = true) (hd2 : ∀ c ∈ ds2, isDigitC c = true) :
    pyIntParse (ds1 ++ '.' :: ds2) = Option.none := by
  have hsp := float_numeral_space ds1 ds2 hd1 hd2
  have hall : ¬ ((ds1 ++ '.' :: ds2).all isDigitC = true) := by
    intro hall
    have h := List.all_eq_true.mp hall '.' (by simp)
    simp [isDigitC] at h
  obtain ⟨c, cs, rfl⟩ : ∃ c cs, ds1 = c :: cs := by
    cases ds1 with
    | nil => exact absurd rfl h1
    | cons c cs => exact ⟨c, cs, rfl⟩
  have hdc := digit_ne c (hd1 c (by simp))
  rw [pyIntParse, pyStrip_no_space _ hsp]
  split
  · next heq =>
    injection heq with hh _
    exact absurd hh hdc.2.1
  · next heq =>
    injection heq with hh _
    exact absurd hh hdc.2.2.1
  · rw [parseDigits, if_neg (fun hcon => hall hcon.2)]
    rfl

theorem pyFloatParse_float (ds1 ds2 : List Char) (h1 : ds1 ≠ []) (_h2 : ds2 ≠ [])
    (hd1 : ∀ c ∈ ds1, isDigitC c = true) (hd2 : ∀ c ∈ ds2, isDigitC c = true) :
    pyFloatParse (ds1 ++ '.' :: ds2)
      = Option.some (mkRat
          (Int.ofNat (digitsVal ds1 * 10 ^ ds2.length + digitsVal ds2))
          (10 ^ ds2.length)) := by
  have hsp := float_numeral_space ds1 ds2 hd1 hd2
  have hsplit : splitAllOn '.' (ds1 ++ '.' :: ds2) = [ds1, ds2] :=
    splitAllOn_dot ds1 ds2
      (fun hmem => by have h := hd1 '.' hmem; simp [isDigitC] at h)
      (fun hmem => by have h := hd2 '.' hmem; simp [isDigitC] at h)
  obtain ⟨c, cs, rfl⟩ : ∃ c cs, ds1 = c :: cs := by
    cases ds1 with
    | nil => exact absurd rfl h1
    | cons c cs => exact ⟨c, cs, rfl⟩
  have hdc := digit_ne c (hd1 c (by simp))
  rw [pyFloatParse, pyStrip_no_space _ hsp]
  split
  · next heq =>
    injection heq with hh _
    exact absurd hh hdc.2.1
  · next heq =>
    injection heq with hh _
    exact absurd hh hdc.2.2.1
  · rw [pyFloatCore, hsplit]
    rw [show (match ([(c :: cs), ds2] : List (List Char)) with
        | [a] => (parseDigits a).map (fun n => mkRat (Int.ofNat n) 1)
        | [a, b] =>
          if (a ≠ [] ∨ b ≠ []) ∧ a.all isDigitC ∧ b.all isDigitC then
            Option.some (mkRat
              (Int.ofNat (digitsVal a * 10 ^ b.length + digitsVal b)) (10 ^ b.length))
          else Option.none
        | _ => Option.none)
      = (if ((c :: cs) ≠ [] ∨ ds2 ≠ []) ∧ (c :: cs).all isDigitC ∧ ds2.all isDigitC then
          Option.some (mkRat
            (Int.ofNat (digitsVal (c :: cs) * 10 ^ ds2.length + digitsVal ds2))
            (10 ^ ds2.length))
        else Option.none) from rfl]
    rw [if_pos ⟨Or.inl (by simp), List.all_eq_true.mpr hd1, List.all_eq_true.mpr hd2⟩]

theorem eval_literal_float_numeral (ds1 ds2 : List Char) (h1 : ds1 ≠ [])
    (h2 : ds2 ≠ [])
    (hd1 : ∀ c ∈ ds1, isDigitC c = true) (hd2 : ∀ c ∈ ds2, isDigitC c = true) :
    eval_literal (ds1 ++ '.' :: ds2)
      = .float (mkRat
          (Int.ofNat (digitsVal ds1 * 10 ^ ds2.length + digitsVal ds2))
          (10 ^ ds2.length)) := by
  have hsp := float_numeral_space ds1 ds2 hd1 hd2
  obtain ⟨c, cs, rfl⟩ : ∃ c cs, ds1 = c :: cs := by
    cases ds1 with
    | nil => exact absurd rfl h1
    | cons c cs => exact ⟨c, cs, rfl⟩
  have hc0 : c ∈ operandChars := digit_mem_operand c (hd1 c (by simp))
  have hne_true : ¬ (c :: (cs ++ '.' :: ds2) = trueTok) := by
    intro he
    rw [show trueTok = 't' :: ("rue".data) from rfl] at he
    injection he with hh _
    exact operand_ne_of c hc0 't' (by decide) hh
  have hne_false : ¬ (c :: (cs ++ '.' :: ds2) = falseTok) := by
    intro he
    rw [show falseTok = 'f' :: ("alse".data) from rfl] at he
    injection he with hh _
    exact operand_ne_of c hc0 'f' (by decide) hh
  have hne_null : ¬ (c :: (cs ++ '.' :: ds2) = nullTok) := by
    intro he
    rw [show nullTok = 'n' :: ("ull".data) from rfl] at he
    injection he with hh _
    exact operand_ne_of c hc0 'n' (by decide) hh
  have hdq : pyStartsWith (c :: (cs ++ '.' :: ds2)) [dqC] = false := by
    rw [pyStartsWith]
    simp [operand_ne_of c hc0 dqC (by decide)]
  have hsq : pyStartsWith (c :: (cs ++ '.' :: ds2)) [sqC] = false := by
    rw [pyStartsWith]
    simp [operand_ne_of c hc0 sqC (by decide)]
  rw [eval_literal, pyStrip_no_space _ hsp]
  rw [show ((c :: cs) ++ '.' :: ds2) = c :: (cs ++ '.' :: ds2) from rfl]
  rw [if_neg hne_true, if_neg hne_false, if_neg hne_null]
  rw [if_neg (by rw [hdq]; simp), if_neg (by rw [hsq]; simp)]
  rw [show (c :: (cs ++ '.' :: ds2)) = ((c :: cs) ++ '.' :: ds2) from rfl]
  rw [pyIntParse_float_none (c :: cs) ds2 (by simp) hd1 hd2]
  rw [pyFloatParse_float (c :: cs) ds2 (by simp) h2 hd1 hd2]

/-! ### The dispatcher tail on operand-shaped expressions -/

/-- An expression that strips to itself and triggers none of the early
dispatcher branches (container literals, function-call form, ternary,
comparisons, logicals) is handled by the arithmetic-and-later tail of
`eval_expr`. -/
theorem evalExpr_succ_tail (m : Nat) (expr : List Char) (ctx : Ctx)
    (hstrip : pyStrip expr = expr)
    (hObj : pyStartsWith expr [lbC] = false)
    (hArr : pyStartsWith expr ['['] = false)
    (hFun : isFunctionCallForm expr = false)
    (hTer : isTernaryForm expr = false)
    (hCmp : findCmpSplit cmpOps expr = Option.none)
    (hAnd : findOpSplit expr andTok = Option.none)
    (hOr : findOpSplit expr orTok = Option.none) :
    evalExpr (m + 1) expr ctx =
      (match findArithSplit arithOps expr with
       | Option.some (l, r, op) => do
         let lv ← evalExpr m l ctx
         let rv ← evalExpr m r ctx
         match lv, op with
         | .str s, .add => do pure (.str (s ++ (← pyStr rv)))
         | _, _ => pyArith op lv rv
       | Option.none =>
         if pyContains expr ['.'] && !isDigitC (expr.headD ' ') then
           eval_property_access expr ctx
         else if pyContains expr ['['] && pyEndsWith expr [']'] then
           eval_index_access (fun e c => evalExpr m e c) expr ctx
         else
           match lookupCtx expr ctx with
           | Option.some v => pure v
           | Option.none => pure (eval_literal expr)) := by
  simp only [evalExpr, hstrip, hObj, hArr, hFun, hTer, hCmp, hAnd, hOr,
    Bool.false_and, Bool.false_eq_true, if_false]

/-- An operand made only of numeral characters, not property-shaped and
unbound in the context, falls through every dispatcher branch to
`eval_literal`. -/
theorem evalExpr_operand (n : Nat) (dc : Char) (drest : List Char) (ctx : Ctx)
    (hop : ∀ c ∈ dc :: drest, c ∈ operandChars)
    (hprop : (pyContains (dc :: drest) ['.'] && !isDigitC ((dc :: drest).headD ' ')) = false)
    (hctx : lookupCtx (dc :: drest) ctx = Option.none) :
    evalExpr (n + 1) (dc :: drest) ctx = Except.ok (eval_literal (dc :: drest)) := by
  have hnotin : ∀ t : Char, t ∉ operandChars → t ∉ dc :: drest :=
    fun t ht hmem => ht (hop t hmem)
  have hncont : ∀ t : Char, t ∉ operandChars → ∀ tl : List Char, t ∈ tl →
      pyContains (dc :: drest) tl = false :=
    fun t ht tl htl => not_contains_of_char _ tl t htl (hnotin t ht)
  have hstrip : pyStrip (dc :: drest) = dc :: drest :=
    pyStrip_no_space _ (fun c hc => operand_space c (hop c hc))
  have hObj : pyStartsWith (dc :: drest) [lbC] = false := by
    rw [pyStartsWith]
    simp [operand_ne_of dc (hop dc (by simp)) lbC (by decide)]
  have hArr : pyStartsWith (dc :: drest) ['['] = false := by
    rw [pyStartsWith]
    simp [operand_ne_of dc (hop dc (by simp)) '[' (by decide)]
  have hParen : pyContains (dc :: drest) ['('] = false := hncont '(' (by decide) _ (by simp)
  have hFun : isFunctionCallForm (dc :: drest) = false := by
    simp [isFunctionCallForm, hParen]
  have hQ : pyContains (dc :: drest) ['?'] = false := hncont '?' (by decide) _ (by simp)
  have hTer : isTernaryForm (dc :: drest) = false := by
    simp [isTernaryForm, hQ]
  have hE1 : pyContains (dc :: drest) ['=', '='] = false := hncont '=' (by decide) _ (by simp)
  have hE2 : pyContains (dc :: drest) ['!', '='] = false := hncont '!' (by decide) _ (by simp)
  have hE3 : pyContains (dc :: drest) ['>', '='] = false := hncont '>' (by decide) _ (by simp)
  have hE4 : pyContains (dc :: drest) ['<', '='] = false := hncont '<' (by decide) _ (by simp)
  have hE5 : pyContains (dc :: drest) ['>'] = false := hncont '>' (by decide) _ (by simp)
  have hE6 : pyContains (dc :: drest) ['<'] = false := hncont '<' (by decide) _ (by simp)
  have hCmp : findCmpSplit cmpOps (dc :: drest) = Option.none := by
    simp [findCmpSplit, cmpOps, hE1, hE2, hE3, hE4, hE5, hE6]
  have hAmp : pyContains (dc :: drest) [' ', '&', '&', ' '] = false :=
    hncont '&' (by decide) _ (by simp)
  have hAnd : findOpSplit (dc :: drest) andTok = Option.none := by
    simp [findOpSplit, andTok, hAmp]
  have hBar : pyContains (dc :: drest) [' ', '|', '|', ' '] = false :=
    hncont '|' (by decide) _ (by simp)
  have hOr : findOpSplit (dc :: drest) orTok = Option.none := by
    simp [findOpSplit, orTok, hBar]
  have hA1 : pyContains (dc :: drest) [' ', '+', ' '] = false := hncont ' ' (by decide) _ (by simp)
  have hA2 : pyContains (dc :: drest) [' ', '-', ' '] = false := hncont ' ' (by decide) _ (by simp)
  have hA3 : pyContains (dc :: drest) [' ', '*', ' '] = false := hncont ' ' (by decide) _ (by simp)
  have hA4 : pyContains (dc :: drest) [' ', '/', ' '] = false := hncont ' ' (by decide) _ (by simp)
  have hA5 : pyContains (dc :: drest) [' ', '%', ' '] = false := hncont ' ' (by decide) _ (by simp)
  have hAri : findArithSplit arithOps (dc :: drest) = Option.none := by
    simp [findArithSplit, arithOps, hA1, hA2, hA3, hA4, hA5]
  have hIdxCont : pyContains (dc :: drest) ['['] = false := hncont '[' (by decide) _ (by simp)
  rw [evalExpr_succ_tail n (dc :: drest) ctx hstrip hObj hArr hFun hTer hCmp hAnd hOr]
  simp only [hAri, hprop, hIdxCont, hctx, Bool.false_and, Bool.false_eq_true, if_false]
  rfl

/-- On `x + <operand>` with `x` bound to a non-string value, the evaluator
splits at the spaced `+` (the rightmost depth-0 occurrence, at index 1),
looks `x` up, evaluates the operand as a literal, and adds. -/
theorem evalExpr_xplus (n : Nat) (dc : Char) (drest : List Char) (b : Val)
    (hop : ∀ c ∈ dc :: drest, c ∈ operandChars)
    (hprop : (pyContains (dc :: drest) ['.'] && !isDigitC ((dc :: drest).headD ' ')) = false)
    (hbs : ∀ s, b ≠ Val.str s) :
    evalExpr (n + 1 + 1) ('x' :: ' ' :: '+' :: ' ' :: dc :: drest) [(("x".data), b)]
      = pyArith ArithOp.add b (eval_literal (dc :: drest)) := by
  have hnotinE : ∀ t : Char, t ∉ (['x', ' ', '+', ' '] : List Char) →
      t ∉ operandChars → t ∉ ('x' :: ' ' :: '+' :: ' ' :: dc :: drest) := by
    intro t h4 hto hmem
    rw [show ('x' :: ' ' :: '+' :: ' ' :: dc :: drest)
        = ['x', ' ', '+', ' '] ++ dc :: drest from rfl] at hmem
    rcases List.mem_append.mp hmem with h | h
    · exact h4 h
    · exact hto (hop t h)
  have hncontE : ∀ t : Char, t ∉ (['x', ' ', '+', ' '] : List Char) →
      t ∉ operandChars → ∀ tl : List Char, t ∈ tl →
      pyContains ('x' :: ' ' :: '+' :: ' ' :: dc :: drest) tl = false :=
    fun t h4 ht tl htl => not_contains_of_char _ tl t htl (hnotinE t h4 ht)
  have hstripd : pyStrip (dc :: drest) = dc :: drest :=
    pyStrip_no_space _ (fun c hc => operand_space c (hop c hc))
  have hstrip : pyStrip ('x' :: ' ' :: '+' :: ' ' :: dc :: drest)
      = 'x' :: ' ' :: '+' :: ' ' :: dc :: drest :=
    pyStrip_xplus (dc :: drest) (by simp) (fun c hc => operand_space c (hop c hc))
  have hObj : pyStartsWith ('x' :: ' ' :: '+' :: ' ' :: dc :: drest) [lbC] = false := rfl
  have hArr : pyStartsWith ('x' :: ' ' :: '+' :: ' ' :: dc :: drest) ['['] = false := rfl
  have hParenE : pyContains ('x' :: ' ' :: '+' :: ' ' :: dc :: drest) ['('] = false :=
    hncontE '(' (by decide) (by decide) _ (by simp)
  have hFun : isFunctionCallForm ('x' :: ' ' :: '+' :: ' ' :: dc :: drest) = false := by
    simp [isFunctionCallForm, hParenE]
  have hQE : pyContains ('x' :: ' ' :: '+' :: ' ' :: dc :: drest) ['?'] = false :=
    hncontE '?' (by decide) (by decide) _ (by simp)
  have hTer : isTernaryForm ('x' :: ' ' :: '+' :: ' ' :: dc :: drest) = false := by
    simp [isTernaryForm, hQE]
  have hE1 : pyContains ('x' :: ' ' :: '+' :: ' ' :: dc :: drest) ['=', '='] = false :=
    hncontE '=' (by decide) (by decide) _ (by simp)
  have hE2 : pyContains ('x' :: ' ' :: '+' :: ' ' :: dc :: drest) ['!', '='] = false :=
    hncontE '!' (by decide) (by decide) _ (by simp)
  have hE3 : pyContains ('x' :: ' ' :: '+' :: ' ' :: dc :: drest) ['>', '='] = false :=
    hncontE '>' (by decide) (by decide) _ (by simp)
  have hE4 : pyContains ('x' :: ' ' :: '+' :: ' ' :: dc :: drest) ['<', '='] = false :=
    hncontE '<' (by decide) (by decide) _ (by simp)
  have hE5 : pyContains ('x' :: ' ' :: '+' :: ' ' :: dc :: drest) ['>'] = false :=
    hncontE '>' (by decide) (by decide) _ (by simp)
  have hE6 : pyContains ('x' :: ' ' :: '+' :: ' ' :: dc :: drest) ['<'] = false :=
    hncontE '<' (by decide) (by decide) _ (by simp)
  have hCmp : findCmpSplit cmpOps ('x' :: ' ' :: '+' :: ' ' :: dc :: drest) = Option.none := by
    simp [findCmpSplit, cmpOps, hE1, hE2, hE3, hE4, hE5, hE6]
  have hAmp : pyContains ('x' :: ' ' :: '+' :: ' ' :: dc :: drest) [' ', '&', '&', ' '] = false :=
    hncontE '&' (by decide) (by decide) _ (by simp)
  have hAnd : findOpSplit ('x' :: ' ' :: '+' :: ' ' :: dc :: drest) andTok = Option.none := by
    simp [findOpSplit, andTok, hAmp]
  have hBar : pyContains ('x' :: ' ' :: '+' :: ' ' :: dc :: drest) [' ', '|', '|', ' '] = false :=
    hncontE '|' (by decide) (by decide) _ (by simp)
  have hOr : findOpSplit ('x' :: ' ' :: '+' :: ' ' :: dc :: drest) orTok = Option.none := by
    simp [findOpSplit, orTok, hBar]
  have hFind : find_at_depth_0 ('x' :: ' ' :: '+' :: ' ' :: dc :: drest) [' ', '+', ' '] true
      = 1 := findAtD0_xplus dc drest hop
  have hAriSplit : findArithSplit arithOps ('x' :: ' ' :: '+' :: ' ' :: dc :: drest)
      = Option.some (['x'], dc :: drest, ArithOp.add) := by
    rw [show findArithSplit arithOps ('x' :: ' ' :: '+' :: ' ' :: dc :: drest)
        = (if 0 ≤ find_at_depth_0 ('x' :: ' ' :: '+' :: ' ' :: dc :: drest) [' ', '+', ' '] true then
            if !(pyStrip (('x' :: ' ' :: '+' :: ' ' :: dc :: drest).take
                  (find_at_depth_0 ('x' :: ' ' :: '+' :: ' ' :: dc :: drest)
                    [' ', '+', ' '] true).toNat)).isEmpty
                && !(pyStrip (('x' :: ' ' :: '+' :: ' ' :: dc :: drest).drop
                  ((find_at_depth_0 ('x' :: ' ' :: '+' :: ' ' :: dc :: drest)
                    [' ', '+', ' '] true).toNat + 3))).isEmpty then
              Option.some
                (pyStrip (('x' :: ' ' :: '+' :: ' ' :: dc :: drest).take
                  (find_at_depth_0 ('x' :: ' ' :: '+' :: ' ' :: dc :: drest)
                    [' ', '+', ' '] true).toNat),
                 pyStrip (('x' :: ' ' :: '+' :: ' ' :: dc :: drest).drop
                  ((find_at_depth_0 ('x' :: ' ' :: '+' :: ' ' :: dc :: drest)
                    [' ', '+', ' '] true).toNat + 3)),
                 ArithOp.add)
            else
              findArithSplit [(['-'], ArithOp.sub), (['*'], ArithOp.mul),
                (['/'], ArithOp.div), (['%'], ArithOp.mod)]
                ('x' :: ' ' :: '+' :: ' ' :: dc :: drest)
          else
            findArithSplit [(['-'], ArithOp.sub), (['*'], ArithOp.mul),
              (['/'], ArithOp.div), (['%'], ArithOp.mod)]
              ('x' :: ' ' :: '+' :: ' ' :: dc :: drest)) from rfl]
    rw [hFind,
      show (('x' :: ' ' :: '+' :: ' ' :: dc :: drest).drop (((1 : Int)).toNat + 3))
        = dc :: drest from rfl,
      hstripd]
    rfl
  have hctxd : lookupCtx (dc :: drest) [(("x".data), b)] = Option.none := by
    have hne : dc :: drest ≠ ("x".data) := by
      intro he
      rw [show ("x".data) = ('x' :: ([] : List Char)) from rfl] at he
      injection he with h1 h2
      exact operand_ne_of dc (hop dc (by simp)) 'x' (by decide) h1
    simp [lookupCtx, hne]
  have hx : evalExpr (n + 1) ['x'] [(("x".data), b)] = Except.ok b := rfl
  have hd : evalExpr (n + 1) (dc :: drest) [(("x".data), b)]
      = Except.ok (eval_literal (dc :: drest)) :=
    evalExpr_operand n dc drest _ hop hprop hctxd
  rw [evalExpr_succ_tail (n + 1) ('x' :: ' ' :: '+' :: ' ' :: dc :: drest) [(("x".data), b)]
    hstrip hObj hArr hFun hTer hCmp hAnd hOr]
  simp only [hAriSplit]
  rw [hx, hd]
  cases b <;> first | exact absurd rfl (hbs _) | rfl

/-- C1 counterexample: the numeral `-1.5` is numeric, yet
`compile("x => x + -1.5")(10)` raises `TypeError` instead of returning
`8.5`: the operand `-1.5` contains a `'.'` and does not start with a
digit, so the evaluator takes the property-access branch, which yields
`None`, and `10 + None` is a `TypeError`. -/
theorem C1_counterexample :
    parse_expr 9 ("x => x + -1.5".data) (Val.int 10) = Except.error RErr.typeError ∧
    (Except.error RErr.typeError : Except RErr Val) ≠ Except.ok (Val.float (mkRat 17 2)) :=
  ⟨rfl, fun h => Except.noConfusion h⟩

/-- C1: amended left-to-right arithmetic.  The split is at the rightmost
depth-0 spaced operator as claimed (index 5 rather than 1 in
`"x - 1 - 1"`, and `compile("x => x - 1 - 1")(10) = 8`), and
`compile("x => x + a")(b) = a + b` holds for every *integer* numeral `a`
(of either sign) and for every *nonnegative* float numeral `a`, with `b`
an int or a float in both cases (e.g. `compile("x => x + 1.5")(2.5) =
4.0`); a negative float numeral such as `-1.5` is instead captured by
the property-access branch and raises `TypeError`. -/
theorem C1_left_to_right_arith_amended :
    (∀ (n : Nat) (neg : Bool) (ds : List Char) (k : Int), ds ≠ [] →
      (∀ c ∈ ds, isDigitC c = true) →
      parse_expr (n + 1 + 1) (("x => x + ".data) ++ numLit neg ds) (Val.int k)
        = Except.ok (Val.int (k + intOfNumeral neg ds))) ∧
    (∀ (n : Nat) (neg : Bool) (ds : List Char) (q : Rat), ds ≠ [] →
      (∀ c ∈ ds, isDigitC c = true) →
      parse_expr (n + 1 + 1) (("x => x + ".data) ++ numLit neg ds) (Val.float q)
        = Except.ok (Val.float (q + (intOfNumeral neg ds : Rat)))) ∧
    (∀ (n : Nat) (ds1 ds2 : List Char) (k : Int), ds1 ≠ [] → ds2 ≠ [] →
      (∀ c ∈ ds1, isDigitC c = true) → (∀ c ∈ ds2, isDigitC c = true) →
      parse_expr (n + 1 + 1) (("x => x + ".data) ++ (ds1 ++ '.' :: ds2)) (Val.int k)
        = Except.ok (Val.float ((k : Rat)
            + (Int.ofNat (digitsVal ds1 * 10 ^ ds2.length + digitsVal ds2) : Rat)
              / ((10 ^ ds2.length : Nat) : Rat)))) ∧
    (∀ (n : Nat) (ds1 ds2 : List Char) (q : Rat), ds1 ≠ [] → ds2 ≠ [] →
      (∀ c ∈ ds1, isDigitC c = true) → (∀ c ∈ ds2, isDigitC c = true) →
      parse_expr (n + 1 + 1) (("x => x + ".data) ++ (ds1 ++ '.' :: ds2)) (Val.float q)
        = Except.ok (Val.float (q
            + (Int.ofNat (digitsVal ds1 * 10 ^ ds2.length + digitsVal ds2) : Rat)
              / ((10 ^ ds2.length : Nat) : Rat)))) ∧
    parse_expr 9 ("x => x + 1.5".data) (Val.float (mkRat 5 2))
      = Except.ok (Val.float 4) ∧
    parse_expr 9 ("x => x - 1 - 1".data) (Val.int 10) = Except.ok (Val.int 8) ∧
    find_at_depth_0 ("x - 1 - 1".data) (" - ".data) true = 5 ∧
    find_at_depth_0 ("x - 1 - 1".data) (" - ".data) false = 1 := by
  have key : ∀ (m : Nat) (dc : Char) (drest : List Char) (b : Val),
      (∀ c ∈ dc :: drest, c ∈ operandChars) →
      ((pyContains (dc :: drest) ['.'] && !isDigitC ((dc :: drest).headD ' ')) = false) →
      (∀ s, b ≠ Val.str s) →
      parse_expr (m + 1 + 1) (("x => x + ".data) ++ (dc :: drest)) b
        = pyArith ArithOp.add b (eval_literal (dc :: drest)) := by
    intro m dc drest b hop hprop hbs
    have hstep : parse_expr (m + 1 + 1) (("x => x + ".data) ++ (dc :: drest)) b
        = evalExpr (m + 1 + 1) (pyStrip ((" x + ".data) ++ (dc :: drest)))
            [(("x".data), b)] := rfl
    rw [hstep, pyStrip_xplus_body (dc :: drest) (by simp)
      (fun c hc => operand_space c (hop c hc))]
    exact evalExpr_xplus m dc drest b hop hprop hbs
  refine ⟨?_, ?_, ?_, ?_, rfl, rfl, rfl, rfl⟩
  · intro n neg ds k hne hd
    have hops := numLit_chars neg ds hd
    obtain ⟨dc, drest, heq⟩ : ∃ dc drest, numLit neg ds = dc :: drest := by
      cases hl : numLit neg ds with
      | nil => exact absurd hl (numLit_ne_nil neg ds hne)
      | cons a l => exact ⟨a, l, rfl⟩
    have hop : ∀ c ∈ dc :: drest, c ∈ operandChars := by
      rw [← heq]
      exact hops
    have hdotmem : '.' ∉ numLit neg ds := by
      intro hmem
      cases neg with
      | false =>
        have hmem2 : '.' ∈ ds := by
          rw [show numLit false ds = ds from rfl] at hmem
          exact hmem
        exact absurd (hd '.' hmem2) (by decide)
      | true =>
        have hmem2 : '.' ∈ '-' :: ds := by
          rw [show numLit true ds = '-' :: ds from rfl] at hmem
          exact hmem
        rcases List.mem_cons.mp hmem2 with h | h
        · exact absurd h (by decide)
        · exact absurd (hd '.' h) (by decide)
    have hdot : pyContains (dc :: drest) ['.'] = false := by
      apply not_contains_of_char _ _ '.' (by simp)
      rw [← heq]
      exact hdotmem
    have hprop : (pyContains (dc :: drest) ['.']
        && !isDigitC ((dc :: drest).headD ' ')) = false := by
      rw [hdot, Bool.false_and]
    have hkey := key n dc drest (Val.int k) hop hprop (fun s h => Val.noConfusion h)
    rw [← heq] at hkey
    rw [hkey, eval_literal_int_numeral neg ds hne hd]
    rfl
  · intro n neg ds q hne hd
    have hops := numLit_chars neg ds hd
    obtain ⟨dc, drest, heq⟩ : ∃ dc drest, numLit neg ds = dc :: drest := by
      cases hl : numLit neg ds with
      | nil => exact absurd hl (numLit_ne_nil neg ds hne)
      | cons a l => exact ⟨a, l, rfl⟩
    have hop : ∀ c ∈ dc :: drest, c ∈ operandChars := by
      rw [← heq]
      exact hops
    have hdotmem : '.' ∉ numLit neg ds := by
      intro hmem
      cases neg with
      | false =>
        have hmem2 : '.' ∈ ds := by
          rw [show numLit false ds = ds from rfl] at hmem
          exact hmem
        exact absurd (hd '.' hmem2) (by decide)
      | true =>
        have hmem2 : '.' ∈ '-' :: ds := by
          rw [show numLit true ds = '-' :: ds from rfl] at hmem
          exact hmem
        rcases List.mem_cons.mp hmem2 with h | h
        · exact absurd h (by decide)
        · exact absurd (hd '.' h) (by decide)
    have hdot : pyContains (dc :: drest) ['.'] = false := by
      apply not_contains_of_char _ _ '.' (by simp)
      rw [← heq]
      exact hdotmem
    have hprop : (pyContains (dc :: drest) ['.']
        && !isDigitC ((dc :: drest).headD ' ')) = false := by
      rw [hdot, Bool.false_and]
    have hkey := key n dc drest (Val.float q) hop hprop (fun s h => Val.noConfusion h)
    rw [← heq] at hkey
    rw [hkey, eval_literal_int_numeral neg ds hne hd]
    show Except.ok (Val.float (ratAdd q (ratOfInt (intOfNumeral neg ds))))
      = Except.ok (Val.float (q + (intOfNumeral neg ds : Rat)))
    rw [ratAdd_eq, ratOfInt_eq]
  · intro n ds1 ds2 k h1 h2 hd1 hd2
    obtain ⟨c, cs, rfl⟩ : ∃ c cs, ds1 = c :: cs := by
      cases ds1 with
      | nil => exact absurd rfl h1
      | cons c cs => exact ⟨c, cs, rfl⟩
    have heq : (c :: cs) ++ '.' :: ds2 = c :: (cs ++ '.' :: ds2) := rfl
    have hop : ∀ e ∈ c :: (cs ++ '.' :: ds2), e ∈ operandChars := by
      intro e he
      rcases List.mem_cons.mp he with rfl | he2
      · exact digit_mem_operand e (hd1 e (by simp))
      · rcases List.mem_append.mp he2 with h | h
        · exact digit_mem_operand e (hd1 e (by simp [h]))
        · rcases List.mem_cons.mp h with rfl | h
          · simp [operandChars]
          · exact digit_mem_operand e (hd2 e h)
    have hprop : (pyContains (c :: (cs ++ '.' :: ds2)) ['.']
        && !isDigitC ((c :: (cs ++ '.' :: ds2)).headD ' ')) = false := by
      rw [show (c :: (cs ++ '.' :: ds2)).headD ' ' = c from rfl]
      rw [hd1 c (by simp)]
      simp
    have hkey := key n c (cs ++ '.' :: ds2) (Val.int k) hop hprop
      (fun s h => Val.noConfusion h)
    rw [← heq] at hkey
    rw [hkey, eval_literal_float_numeral (c :: cs) ds2 (by simp) h2 hd1 hd2]
    show Except.ok (Val.float (ratAdd (ratOfInt k)
        (mkRat (Int.ofNat (digitsVal (c :: cs) * 10 ^ ds2.length + digitsVal ds2))
          (10 ^ ds2.length))))
      = Except.ok (Val.float ((k : Rat)
          + (Int.ofNat (digitsVal (c :: cs) * 10 ^ ds2.length + digitsVal ds2) : Rat)
            / ((10 ^ ds2.length : Nat) : Rat)))
    rw [ratAdd_eq, ratOfInt_eq, Rat.mkRat_eq_div]
  · intro n ds1 ds2 q h1 h2 hd1 hd2
    obtain ⟨c, cs, rfl⟩ : ∃ c cs, ds1 = c :: cs := by
      cases ds1 with
      | nil => exact absurd rfl h1
      | cons c cs => exact ⟨c, cs, rfl⟩
    have heq : (c :: cs) ++ '.' :: ds2 = c :: (cs ++ '.' :: ds2) := rfl
    have hop : ∀ e ∈ c :: (cs ++ '.' :: ds2), e ∈ operandChars := by
      intro e he
      rcases List.mem_cons.mp he with rfl | he2
      · exact digit_mem_operand e (hd1 e (by simp))
      · rcases List.mem_append.mp he2 with h | h
        · exact digit_mem_operand e (hd1 e (by simp [h]))
        · rcases List.mem_cons.mp h with rfl | h
          · simp [operandChars]
          · exact digit_mem_operand e (hd2 e h)
    have hprop : (pyContains (c :: (cs ++ '.' :: ds2)) ['.']
        && !isDigitC ((c :: (cs ++ '.' :: ds2)).headD ' ')) = false := by
      rw [show (c :: (cs ++ '.' :: ds2)).headD ' ' = c from rfl]
      rw [hd1 c (by simp)]
      simp
    have hkey := key n c (cs ++ '.' :: ds2) (Val.float q) hop hprop
      (fun s h => Val.noConfusion h)
    rw [← heq] at hkey
    rw [hkey, eval_literal_float_numeral (c :: cs) ds2 (by simp) h2 hd1 hd2]
    show Except.ok (Val.float (ratAdd q
        (mkRat (Int.ofNat (digitsVal (c :: cs) * 10 ^ ds2.length + digitsVal ds2))
          (10 ^ ds2.length))))
      = Except.ok (Val.float (q
          + (Int.ofNat (digitsVal (c :: cs) * 10 ^ ds2.length + digitsVal ds2) : Rat)
            / ((10 ^ ds2.length : Nat) : Rat)))
    rw [ratAdd_eq, Rat.mkRat_eq_div]

/-- C1 witness: the amended law at the integer numerals `-15` and `2` and
the float numeral `1.5`, the latter with both an int and a float input. -/
theorem C1_left_to_right_arith_amended_witness :
    (['1', '5'] : List Char) ≠ [] ∧
    parse_expr 9 (("x => x + ".data) ++ numLit true ['1', '5']) (Val.int 10)
      = Except.ok (Val.int (10 + intOfNumeral true ['1', '5'])) ∧
    parse_expr 9 (("x => x + ".data) ++ numLit false ['2']) (Val.float 3)
      = Except.ok (Val.float (3 + (intOfNumeral false ['2'] : Rat))) ∧
    parse_expr 9 (("x => x + ".data) ++ (['1'] ++ '.' :: ['5'])) (Val.int 10)
      = Except.ok (Val.float ((10 : Rat)
          + (Int.ofNat (digitsVal ['1'] * 10 ^ (['5'] : List Char).length
              + digitsVal ['5']) : Rat)
            / ((10 ^ (['5'] : List Char).length : Nat) : Rat))) ∧
    parse_expr 9 (("x => x + ".data) ++ (['1'] ++ '.' :: ['5'])) (Val.float (mkRat 5 2))
      = Except.ok (Val.float (mkRat 5 2
          + (Int.ofNat (digitsVal ['1'] * 10 ^ (['5'] : List Char).length
              + digitsVal ['5']) : Rat)
            / ((10 ^ (['5'] : List Char).length : Nat) : Rat))) :=
  ⟨by decide,
   C1_left_to_right_arith_amended.1 7 true ['1', '5'] 10 (by decide) (by decide),
   C1_left_to_right_arith_amended.2.1 7 false ['2'] 3 (by decide) (by decide),
   C1_left_to_right_arith_amended.2.2.1 7 ['1'] ['5'] 10 (by decide) (by decide)
     (by decide) (by decide),
   C1_left_to_right_arith_amended.2.2.2.1 7 ['1'] ['5'] (mkRat 5 2) (by decide)
     (by decide) (by decide) (by decide)⟩

end PrimRt
